import Mathlib

/-!
Verification of the hackmit-2025 PCB router: a shallow embedding of
parse_sch.py, snake_game.py and pcb_patcher.py, with theorems about the
grid mappings, the net extraction, the routing loop and the persistence
step. Machine floats of the original are modelled by exact rationals.
-/

/-- Python round(): round half to even, on exact rationals. -/
def pyRound (q : ℚ) : ℤ :=
  let n := ⌊q⌋
  let f := q - (n : ℚ)
  if f < 1/2 then n
  else if 1/2 < f then n + 1
  else if n % 2 = 0 then n else n + 1

/-- Python round(x, 4): round to 4 decimal places, half to even. -/
def round4 (q : ℚ) : ℚ := (pyRound (q * 10000) : ℚ) / 10000

/-! ## Grid mappings: snake_game.map_to_grid and pcb_patcher.grid_to_pcb -/

namespace SnakeGame

def GRID_W : ℕ := 80

def GRID_H : ℕ := 40

def MAP_PADDING : ℕ := 4

/-- One axis of the forward mapping of map_to_grid:
padding + MAP_PADDING//2 + int(round((v - minv) / (maxv - minv) * (gw-1))). -/
def axisToGrid (mp p g : ℕ) (minv maxv v : ℚ) : ℤ :=
  (p : ℤ) + ((mp / 2 : ℕ) : ℤ) + pyRound ((v - minv) / (maxv - minv) * (((g - 1 : ℕ)) : ℚ))

/-- map_to_grid of snake_game.py: computes the pad bounding box, widens a
degenerate axis to length 1, and maps every pad through axisToGrid. -/
def map_to_grid (pads : List (String × String × ℚ × ℚ)) (width height padding : ℕ) :
    List (String × String × ℤ × ℤ) :=
  match pads with
  | [] => []
  | pad0 :: _ =>
    let xs := pads.map (fun q => q.2.2.1)
    let ys := pads.map (fun q => q.2.2.2)
    let minx := xs.foldl min pad0.2.2.1
    let maxx := xs.foldl max pad0.2.2.1
    let miny := ys.foldl min pad0.2.2.2
    let maxy := ys.foldl max pad0.2.2.2
    let maxx := if maxx - minx < 1/1000000 then minx + 1 else maxx
    let maxy := if maxy - miny < 1/1000000 then miny + 1 else maxy
    let gw := max 1 (width - padding*2 - MAP_PADDING)
    let gh := max 1 (height - padding*2 - MAP_PADDING)
    pads.map (fun q =>
      (q.1, q.2.1, axisToGrid MAP_PADDING padding gw minx maxx q.2.2.1,
                   axisToGrid MAP_PADDING padding gh miny maxy q.2.2.2))

end SnakeGame

namespace PcbPatcher

def GRID_W : ℕ := 60

def GRID_H : ℕ := 24

def MAP_PADDING : ℕ := 4

def PADDING : ℕ := 2

structure Bounds where
  minx : ℚ
  maxx : ℚ
  miny : ℚ
  maxy : ℚ
  gw : ℕ
  gh : ℕ
deriving Repr, DecidableEq

/-- compute_bounds_from_footprints: bounding box of all pad coordinates,
degenerate axes widened to length 1; raises when no pad exists. -/
def computeBounds (padsXY : List (ℚ × ℚ)) : Option Bounds :=
  match padsXY with
  | [] => none
  | p0 :: _ =>
    let xs := padsXY.map Prod.fst
    let ys := padsXY.map Prod.snd
    let minx := xs.foldl min p0.1
    let maxx := xs.foldl max p0.1
    let miny := ys.foldl min p0.2
    let maxy := ys.foldl max p0.2
    let maxx := if |maxx - minx| < 1/1000000 then minx + 1 else maxx
    let maxy := if |maxy - miny| < 1/1000000 then miny + 1 else maxy
    let gw := max 1 (GRID_W - PADDING*2 - MAP_PADDING)
    let gh := max 1 (GRID_H - PADDING*2 - MAP_PADDING)
    some ⟨minx, maxx, miny, maxy, gw, gh⟩

/-- Python str.rstrip(): drop trailing ASCII whitespace. -/
def pyWs (c : Char) : Bool :=
  c == ' ' || c == '\t' || c == '\n' || c == '\r' || c == Char.ofNat 11 || c == Char.ofNat 12

def pyRstrip (s : String) : String :=
  String.mk ((s.toList.reverse.dropWhile pyWs).reverse)

/-- Python s[:-1]. -/
def dropLast1 (s : String) : String := String.mk s.toList.dropLast

/-- Python s.endswith( close paren ). -/
def endsParen (s : String) : Bool := s.toList.getLast? == some ')'

/-- Python format(x, picking 4 fractional digits): fixed-point decimal text. -/
def fmt4 (x : ℚ) : String :=
  let n := pyRound (x * 10000)
  let m := n.natAbs
  let ip := m / 10000
  let fp := m % 10000
  let fs := toString fp
  let fs := String.mk (List.replicate (4 - fs.length) '0') ++ fs
  (if n < 0 then ("-") else ("")) ++ toString ip ++ "." ++ fs

/-- One axis of grid_to_pcb: normalized fraction, clamped to the unit
interval, scaled back to board coordinates and rounded to 4 decimals. -/
def axisFromGrid (mp p g : ℕ) (minv maxv : ℚ) (gv : ℤ) : ℚ :=
  round4 (minv + max 0 (min 1 (((gv : ℚ) - (p : ℚ) - ((mp / 2 : ℕ) : ℚ)) / ((max 1 (g - 1) : ℕ) : ℚ))) * (maxv - minv))

/-- grid_to_pcb of pcb_patcher.py. -/
def grid_to_pcb (gx gy : ℤ) (b : Bounds) : ℚ × ℚ :=
  (axisFromGrid MAP_PADDING PADDING b.gw b.minx b.maxx gx,
   axisFromGrid MAP_PADDING PADDING b.gh b.miny b.maxy gy)

/-- One textual segment S-expression line of append_tracks. -/
def segLineTxt (a1 a2 b1 b2 w : ℚ) (layer : String) (netIdx : ℕ) : String :=
  "\t(segment (start " ++ fmt4 a1 ++ " " ++ fmt4 a2 ++ ") (end " ++ fmt4 b1 ++ " "
    ++ fmt4 b2 ++ ") (width " ++ fmt4 w ++ ") (layer \"" ++ layer ++ "\") (net "
    ++ toString netIdx ++ "))"

inductive PatchErr where
  | noPads
  | badFormat
  | parseFail
deriving DecidableEq, Repr

inductive PRes where
  | ok (n : ℕ)
  | err (e : PatchErr)
deriving DecidableEq, Repr

/-- The observable outcome of one append_tracks call: final content of the
board file, final content of the .bak file, and the returned value or the
exception that escaped. -/
structure PatchResult where
  file : String
  bak : Option String
  result : PRes
deriving DecidableEq, Repr

/-- append_tracks of pcb_patcher.py, as a function of the file-system state
it touches: orig is the current board file text and bak0 the current .bak
content if that file exists. The sexpdata parser used for the final check is
abstracted by the parseOk oracle; the net-name regex of the source is dead
code (the name is never used) and is omitted. -/
def appendTracks (pads : List (ℚ × ℚ)) (netIdx : ℕ) (points : List (ℤ × ℤ))
    (widthMm : ℚ) (layer : String) (parseOk : String → Bool)
    (orig : String) (bak0 : Option String) : PatchResult :=
  -- backup original: shutil.copy overwrites any existing .bak, bak0 is lost
  let bak := some orig
  match computeBounds pads with
  | none => ⟨orig, bak, .err .noPads⟩
  | some bounds =>
    let segLines := (points.zip points.tail).map (fun ab =>
      let a := grid_to_pcb ab.1.1 ab.1.2 bounds
      let b := grid_to_pcb ab.2.1 ab.2.2 bounds
      segLineTxt a.1 a.2 b.1 b.2 widthMm layer netIdx)
    if segLines = [] then ⟨orig, bak, .ok 0⟩
    else
      let s := pyRstrip orig
      if endsParen s = false then ⟨orig, bak, .err .badFormat⟩
      else
        let newText := pyRstrip (dropLast1 s) ++ "\n"
          ++ String.intercalate ("\n") segLines ++ "\n)\n"
        if parseOk newText then ⟨newText, bak, .ok segLines.length⟩
        else ⟨orig, bak, .err .parseFail⟩

end PcbPatcher

/-! ## parse_sch.py: union-find over quantized coordinates and net emission -/

namespace ParseSch

/-- Schematic coordinates, quantized to hundredths by round(x, 2) in the
parser; only equality of coordinates matters here, so they are modelled as
pairs of integers (the number of hundredths). -/
abbrev Coord := ℤ × ℤ

/-- find of parse_sch.unionfind, with path compression, fuelled: the Python
recursion terminates on every parent forest and the fuel is always chosen
larger than the depth of any chain. Returns the root and the compressed
parent map. -/
def findA : ℕ → (Coord → Coord) → Coord → Coord × (Coord → Coord)
  | 0, par, x => (x, par)
  | fuel+1, par, x =>
    if par x = x then (x, par)
    else
      let r := (findA fuel par (par x)).1
      let par1 := (findA fuel par (par x)).2
      (r, Function.update par1 x r)

/-- union of parse_sch.unionfind. -/
def unionA (fuel : ℕ) (par : Coord → Coord) (a b : Coord) : Coord → Coord :=
  let ra := (findA fuel par a).1
  let p1 := (findA fuel par a).2
  let rb := (findA fuel p1 b).1
  let p2 := (findA fuel p1 b).2
  if ra ≠ rb then Function.update p2 rb ra else p2

/-- The union pass: parent = {n: n for n in nodes} is modelled by the
identity function (find is only ever applied to nodes and their parents),
then union over every edge in order. -/
def ufParent (fuel : ℕ) (edges : List (Coord × Coord)) : Coord → Coord :=
  edges.foldl (fun p e => unionA fuel p e.1 e.2) id

/-- groups.setdefault(root, []).append(n): insertion-ordered association
list of root to member list. -/
def addGroup (gs : List (Coord × List Coord)) (r n : Coord) : List (Coord × List Coord) :=
  match gs with
  | [] => [(r, [n])]
  | (k, ms) :: rest => if k = r then (k, ms ++ [n]) :: rest else (k, ms) :: addGroup rest r n

/-- The grouping pass: for n in nodes: root = find(n); append n, threading
the compressed parent map through. -/
def groupsPass (fuel : ℕ) : List Coord → (Coord → Coord) → List (Coord × List Coord)
    → List (Coord × List Coord)
  | [], _, gs => gs
  | n :: rest, par, gs =>
    groupsPass fuel rest ((findA fuel par n).2) (addGroup gs ((findA fuel par n).1) n)

/-- unionfind of parse_sch.py. -/
def unionfind (nodes : List Coord) (edges : List (Coord × Coord)) : List (Coord × List Coord) :=
  groupsPass (nodes.length + 1) nodes (ufParent (nodes.length + 1) edges) []

/-- Python dict lookup for the pin_positions and labels dictionaries built
by repeated assignment: the last binding of a key wins. -/
def lookupL (l : List (Coord × String)) (c : Coord) : Option String :=
  match l with
  | [] => none
  | (k, v) :: rest =>
    match lookupL rest c with
    | some w => some w
    | none => if k = c then some v else none

/-- The graph nodes of parse_kicad: wire endpoints, pin coordinates and
label coordinates. Python iterates a set whose order is unspecified; this
model fixes one duplicate-free enumeration. -/
def schNodes (segs : List (Coord × Coord)) (pinKeys labelKeys : List Coord) : List Coord :=
  ((segs.map Prod.fst) ++ (segs.map Prod.snd) ++ pinKeys ++ labelKeys).dedup

/-- The net-emission loop of parse_kicad over the groups: a group emits a
net iff it has at least 2 pins; its name is the label of the last labelled
member in traversal order, and the Python falsiness test (if not name) sends
both a missing label (None) and an empty-string label to the auto-generated
name — modelled by Option.getD with default empty. The counter increments
only when an auto name is used. Each dict assignment nets[name] = pins is
recorded as an emitted pair. -/
def netsEmit (pinPos labels : Coord → Option String) :
    List (Coord × List Coord) → ℕ → List (String × List String)
  | [], _ => []
  | (_, members) :: rest, idx =>
    let pins := members.filterMap pinPos
    let name := ((members.filterMap labels).getLast?).getD ("")
    if 2 ≤ pins.length then
      if name ≠ "" then (name, pins) :: netsEmit pinPos labels rest idx
      else ("N$" ++ toString idx, pins) :: netsEmit pinPos labels rest (idx + 1)
    else netsEmit pinPos labels rest idx

/-- The nets dictionary construction of parse_kicad, from the wire segments
and the pin and label dictionaries (given as association lists). -/
def netsOf (segs : List (Coord × Coord)) (pinPosL labelsL : List (Coord × String)) :
    List (String × List String) :=
  netsEmit (lookupL pinPosL) (lookupL labelsL)
    (unionfind (schNodes segs (pinPosL.map Prod.fst) (labelsL.map Prod.fst)) segs) 1

/-- The undirected edge relation of the wire segments. -/
def relOf (edges : List (Coord × Coord)) (a b : Coord) : Prop :=
  (a, b) ∈ edges ∨ (b, a) ∈ edges

/-- Electrical connectivity: the equivalence closure of the wire segments. -/
def conn (edges : List (Coord × Coord)) : Coord → Coord → Prop :=
  Relation.EqvGen (relOf edges)

/-- x is a fixed point of the parent map. -/
def IsRoot (par : Coord → Coord) (x : Coord) : Prop := par x = x

/-- The chain of parents from x ends at the root r. -/
def RootedAt (par : Coord → Coord) (x r : Coord) : Prop :=
  (∃ k, par^[k] x = r) ∧ IsRoot par r

/-- Two nodes share their root. -/
def SameRoot (par : Coord → Coord) (y z : Coord) : Prop :=
  ∃ r, RootedAt par y r ∧ RootedAt par z r

/-- Invariant of the union-find parent map: identity outside the node set,
closed on it, and parent chains descend along some rank, hence acyclic. -/
structure UFInv (S : Finset Coord) (par : Coord → Coord) : Prop where
  support : ∀ x, x ∉ S → par x = x
  closed : ∀ x, x ∈ S → par x ∈ S
  bounded : ∃ rank : Coord → ℕ, ∀ x, par x ≠ x → rank (par x) < rank x

/-- All group members, in group order. -/
def membersAll (gs : List (Coord × List Coord)) : List Coord :=
  gs.foldr (fun g acc => g.2 ++ acc) []

end ParseSch

/-! ## The routing loop of snake_game.run -/

namespace SnakeGame

abbrev Cell := ℤ × ℤ

/-- Keys the loop reacts to: the four KEY_MAP directions, q, or no input
pending this tick (getch returning -1). -/
inductive Key where
  | up
  | down
  | left
  | right
  | quit
  | idle
deriving DecidableEq, Repr

def keyDir : Key → Option Cell
  | .up => some (0, -1)
  | .down => some (0, 1)
  | .left => some (-1, 0)
  | .right => some (1, 0)
  | .quit => none
  | .idle => none

/-- Snake state of one routing attempt: body (head first), direction, the
trail set (modelled as a duplicate-free list), index of the next pin to
visit, and score. -/
structure SnakeSt where
  snake : List Cell
  dir : Cell
  trail : List Cell
  appleIdx : ℕ
  score : ℕ
deriving DecidableEq, Repr

/-- init_snake of snake_game.run: seed body of 3 cells to the toroidal left
of the start pad, direction right, trail = those cells, apple_idx 1, score 1. -/
def init_snake (sx sy : ℤ) : SnakeSt :=
  ⟨[(sx % (GRID_W : ℤ), sy % (GRID_H : ℤ)),
    ((sx - 1) % (GRID_W : ℤ), sy % (GRID_H : ℤ)),
    ((sx - 2) % (GRID_W : ℤ), sy % (GRID_H : ℤ))],
   (1, 0),
   [(sx % (GRID_W : ℤ), sy % (GRID_H : ℤ)),
    ((sx - 1) % (GRID_W : ℤ), sy % (GRID_H : ℤ)),
    ((sx - 2) % (GRID_W : ℤ), sy % (GRID_H : ℤ))],
   1, 1⟩

/-- Per-net environment: previously routed cells, the reverse pad lookup,
the coords list (pins of this net present in pad_map, in net order) and the
start pad. -/
structure NetEnv where
  occupied : List Cell
  coordToPad : Cell → Option String
  coords : List (String × Cell)
  startX : ℤ
  startY : ℤ

/-- Python set.add on the trail. -/
def sinsert (c : Cell) (l : List Cell) : List Cell := if c ∈ l then l else c :: l

/-- Key acceptance: a KEY_MAP direction is taken unless it reverses the
current direction; any other key leaves the direction unchanged. -/
def nextDir (k : Key) (dir : Cell) : Cell :=
  match keyDir k with
  | some nd => if nd.1 ≠ -dir.1 ∨ nd.2 ≠ -dir.2 then nd else dir
  | none => dir

/-- Toroidal advance of the head by one cell. -/
def nextCell (h d : Cell) : Cell :=
  ((h.1 + d.1 + (GRID_W : ℤ)) % (GRID_W : ℤ), (h.2 + d.2 + (GRID_H : ℤ)) % (GRID_H : ℤ))

/-- The two collision tests of the loop, which differ only in the message
they display: next cell on an already routed trace, or next cell on a pad
that does not belong to the current net. -/
def collides (env : NetEnv) (n : Cell) : Bool :=
  decide (n ∈ env.occupied) ||
    (match env.coordToPad n with
     | some pad => !(decide (pad ∈ env.coords.map Prod.fst))
     | none => false)

/-- One getch: the pending key if any, else idle. -/
def popKey : List Key → Key × List Key
  | [] => (.idle, [])
  | k :: ks => (k, ks)

inductive LoopRes where
  | done (s : SnakeSt) (ks : List Key)
  | quitGame
  | fuelOut (s : SnakeSt) (ks : List Key)
deriving DecidableEq, Repr

/-- The inner while-loop of snake_game.run for one net, driven by a key
stream, with fuel bounding the number of iterations (the drawing code and
the real-time throttling are omitted; an exhausted key stream reads as
idle). On a collision the blocking acknowledgement getch consumes the next
key: q quits, anything else restarts the snake from init_snake. -/
def runLoop (env : NetEnv) : ℕ → List Key → SnakeSt → LoopRes
  | 0, ks, s => .fuelOut s ks
  | fuel+1, ks, s =>
    if (popKey ks).1 = Key.quit then .quitGame
    else
      let d := nextDir (popKey ks).1 s.dir
      let n := nextCell (s.snake.headD (0, 0)) d
      if collides env n then
        if (popKey (popKey ks).2).1 = Key.quit then .quitGame
        else runLoop env fuel (popKey (popKey ks).2).2 (init_snake env.startX env.startY)
      else
        if s.appleIdx < env.coords.length then
          runLoop env fuel (popKey ks).2
            (if n = (env.coords.getD s.appleIdx ("", (0, 0))).2 then
              ⟨n :: s.snake, d, sinsert n s.trail, s.appleIdx + 1, s.score + 1⟩
            else ⟨n :: s.snake, d, sinsert n s.trail, s.appleIdx, s.score⟩)
        else .done ⟨n :: s.snake, d, sinsert n s.trail, s.appleIdx, s.score⟩ (popKey ks).2

inductive RunEnd where
  | finished
  | pausedInvalid
  | quitByUser
  | outOfFuel
deriving DecidableEq, Repr

/-- Observable result of the outer net loop: the occupied cells (the chars
stored with them are display only and dropped), the per-net persistence
records (net number and ordered grid points handed to append_tracks), and
how the session ended. -/
structure RouteOut where
  occupied : List Cell
  persisted : List (ℕ × List Cell)
  ending : RunEnd
deriving DecidableEq, Repr

/-- The outer while-loop of snake_game.run: for each net, the pins present
in pad_map form coords; a net with no mapped pin is skipped; a start pad on
an existing trace pauses forever; otherwise the snake runs, its final trail
is committed to occupied, and the ordered points (snake body then leftover
trail cells) are recorded for append_tracks when the footprint JSON knows a
net number for the first pin. -/
def routeNets (padMap : String → Option Cell) (coordToPad : Cell → Option String)
    (netIdxOf : String → Option ℕ) (fuel : ℕ) :
    List (String × List String) → List Key → List Cell → List (ℕ × List Cell) → RouteOut
  | [], _, occ, pers => ⟨occ, pers, .finished⟩
  | (_, pins) :: rest, ks, occ, pers =>
    match pins.filterMap (fun p => (padMap p).map (fun c => (p, c))) with
    | [] => routeNets padMap coordToPad netIdxOf fuel rest ks occ pers
    | (p0, sc) :: ctail =>
      if sc ∈ occ then ⟨occ, pers, .pausedInvalid⟩
      else
        match runLoop ⟨occ, coordToPad, (p0, sc) :: ctail, sc.1, sc.2⟩ fuel ks
            (init_snake sc.1 sc.2) with
        | .quitGame => ⟨occ, pers, .quitByUser⟩
        | .fuelOut _ _ => ⟨occ, pers, .outOfFuel⟩
        | .done s ks2 =>
          routeNets padMap coordToPad netIdxOf fuel rest ks2
            (occ ++ s.trail.filter (fun c => decide (c ∉ occ)))
            (match netIdxOf p0 with
             | some i => pers ++ [(i, s.snake ++ s.trail.filter (fun c => decide (c ∉ s.snake)))]
             | none => pers)

end SnakeGame

/-! ## Proofs -/

section PyRoundLemmas

lemma pyRound_eq_low {q : ℚ} {n : ℤ} (h1 : (n : ℚ) ≤ q) (h2 : q < (n : ℚ) + 1/2) :
    pyRound q = n := by
  have hfl : ⌊q⌋ = n := by
    apply Int.floor_eq_iff.mpr
    constructor
    · exact h1
    · calc q < (n : ℚ) + 1/2 := h2
        _ ≤ (n : ℚ) + 1 := by linarith
  unfold pyRound
  rw [hfl]
  have : q - (n : ℚ) < 1/2 := by linarith
  rw [if_pos this]

lemma pyRound_eq_high {q : ℚ} {n : ℤ} (h1 : (n : ℚ) + 1/2 < q) (h2 : q < (n : ℚ) + 1) :
    pyRound q = n + 1 := by
  have hfl : ⌊q⌋ = n := by
    apply Int.floor_eq_iff.mpr
    exact ⟨by linarith, by exact_mod_cast h2⟩
  unfold pyRound
  rw [hfl]
  have hnotlow : ¬ (q - (n : ℚ) < 1/2) := by linarith
  have hhigh : 1/2 < q - (n : ℚ) := by linarith
  rw [if_neg hnotlow, if_pos hhigh]

lemma pyRound_eq_half_even {q : ℚ} {n : ℤ} (h : q = (n : ℚ) + 1/2) (he : n % 2 = 0) :
    pyRound q = n := by
  have hfl : ⌊q⌋ = n := by
    apply Int.floor_eq_iff.mpr
    exact ⟨by linarith, by rw [h]; linarith⟩
  unfold pyRound
  rw [hfl]
  have h1 : ¬ (q - (n : ℚ) < 1/2) := by rw [h]; linarith
  have h2 : ¬ ((1:ℚ)/2 < q - (n : ℚ)) := by rw [h]; linarith
  rw [if_neg h1, if_neg h2, if_pos he]

lemma pyRound_eq_half_odd {q : ℚ} {n : ℤ} (h : q = (n : ℚ) + 1/2) (ho : n % 2 = 1) :
    pyRound q = n + 1 := by
  have hfl : ⌊q⌋ = n := by
    apply Int.floor_eq_iff.mpr
    exact ⟨by linarith, by rw [h]; linarith⟩
  unfold pyRound
  rw [hfl]
  have h1 : ¬ (q - (n : ℚ) < 1/2) := by rw [h]; linarith
  have h2 : ¬ ((1:ℚ)/2 < q - (n : ℚ)) := by rw [h]; linarith
  have h3 : ¬ (n % 2 = 0) := by omega
  rw [if_neg h1, if_neg h2, if_neg h3]

/-- The rounding error of pyRound is at most one half. -/
lemma abs_pyRound_sub_le (q : ℚ) : |(pyRound q : ℚ) - q| ≤ 1/2 := by
  unfold pyRound
  have hfl : (⌊q⌋ : ℚ) ≤ q := Int.floor_le q
  have hfu : q < (⌊q⌋ : ℚ) + 1 := Int.lt_floor_add_one q
  by_cases h1 : q - (⌊q⌋ : ℚ) < 1/2
  · simp only [h1, if_true]
    rw [abs_le]
    constructor <;> linarith
  · by_cases h2 : (1:ℚ)/2 < q - (⌊q⌋ : ℚ)
    · simp only [h1, if_false, h2, if_true]
      rw [abs_le]
      push_cast
      constructor <;> linarith
    · by_cases h3 : ⌊q⌋ % 2 = 0
      · simp only [h1, if_false, h2, h3, if_true]
        rw [abs_le]
        constructor <;> linarith
      · simp only [h1, if_false, h2, h3, if_true]
        rw [abs_le]
        push_cast
        constructor <;> linarith

lemma pyRound_nonneg {q : ℚ} (h : 0 ≤ q) : 0 ≤ pyRound q := by
  have hb := abs_pyRound_sub_le q
  rw [abs_le] at hb
  have h1 : (-1 : ℚ) < (pyRound q : ℚ) := by linarith [hb.1]
  have h2 : (-1 : ℤ) < pyRound q := by exact_mod_cast h1
  omega

lemma pyRound_le_of_le {q : ℚ} {N : ℤ} (h : q ≤ (N : ℚ)) : pyRound q ≤ N := by
  have hb := abs_pyRound_sub_le q
  rw [abs_le] at hb
  have h1 : (pyRound q : ℚ) < (N : ℚ) + 1 := by linarith [hb.2]
  have h2 : pyRound q < N + 1 := by exact_mod_cast h1
  omega

lemma abs_round4_sub_le (q : ℚ) : |round4 q - q| ≤ 1/20000 := by
  unfold round4
  have hb := abs_pyRound_sub_le (q * 10000)
  have h10 : (0:ℚ) < 10000 := by norm_num
  have heq : (pyRound (q * 10000) : ℚ) / 10000 - q
      = ((pyRound (q * 10000) : ℚ) - q * 10000) / 10000 := by ring
  rw [heq, abs_div, abs_of_pos h10, div_le_iff₀ h10]
  calc |(pyRound (q * 10000) : ℚ) - q * 10000| ≤ 1/2 := hb
    _ = 1/20000 * 10000 := by norm_num

end PyRoundLemmas

namespace ParseSch

lemma isRoot_iterate {par : Coord → Coord} {r : Coord} (h : IsRoot par r) :
    ∀ m, par^[m] r = r := by
  intro m
  induction m with
  | zero => rfl
  | succ m ih => rw [Function.iterate_succ_apply', ih]; exact h

lemma rootedAt_unique {par : Coord → Coord} {x r1 r2 : Coord}
    (h1 : RootedAt par x r1) (h2 : RootedAt par x r2) : r1 = r2 := by
  obtain ⟨⟨k1, hk1⟩, hr1⟩ := h1
  obtain ⟨⟨k2, hk2⟩, hr2⟩ := h2
  rcases le_total k1 k2 with h | h
  · have hsplit : par^[k2] x = par^[k2 - k1] (par^[k1] x) := by
      rw [← Function.iterate_add_apply, Nat.sub_add_cancel h]
    rw [hk1, isRoot_iterate hr1] at hsplit
    exact (hk2.symm.trans hsplit).symm
  · have hsplit : par^[k1] x = par^[k1 - k2] (par^[k2] x) := by
      rw [← Function.iterate_add_apply, Nat.sub_add_cancel h]
    rw [hk2, isRoot_iterate hr2] at hsplit
    exact hk1.symm.trans hsplit

lemma uf_acyclic {S : Finset Coord} {par : Coord → Coord} (inv : UFInv S par) :
    ∀ x k, par^[k+1] x = x → par x = x := by
  obtain ⟨rank, hrank⟩ := inv.bounded
  have key : ∀ m (y : Coord), (∀ i, i < m → par (par^[i] y) ≠ par^[i] y) →
      rank (par^[m] y) + m ≤ rank y := by
    intro m
    induction m with
    | zero => intro y _; simp
    | succ m ih =>
      intro y h
      have h1 : rank (par^[m+1] y) < rank (par^[m] y) := by
        rw [Function.iterate_succ_apply']
        exact hrank _ (h m (by omega))
      have h2 := ih y (fun i hi => h i (by omega))
      omega
  intro x k hcyc
  by_contra hx
  have hcycm : ∀ m, par^[(k+1)*m] x = x := by
    intro m
    induction m with
    | zero => rfl
    | succ m ih =>
      have : (k+1)*(m+1) = (k+1)*m + (k+1) := by ring
      rw [this, Function.iterate_add_apply]
      rw [hcyc]  -- inner par^[k+1] x = x
      exact ih
  have hall : ∀ i, par (par^[i] x) ≠ par^[i] x := by
    intro i hroot
    have hge : i ≤ (k+1)*i := Nat.le_mul_of_pos_left i (by omega)
    have hxi : x = par^[i] x := by
      have hsplit : par^[(k+1)*i] x = par^[(k+1)*i - i] (par^[i] x) := by
        rw [← Function.iterate_add_apply, Nat.sub_add_cancel hge]
      rw [hcycm i, isRoot_iterate hroot] at hsplit
      exact hsplit
    apply hx
    calc par x = par (par^[i] x) := by rw [← hxi]
      _ = par^[i] x := hroot
      _ = x := hxi.symm
  have hA := key (rank x + 1) x (fun i _ => hall i)
  omega

lemma uf_depth {S : Finset Coord} {par : Coord → Coord} (inv : UFInv S par) :
    ∀ x, ∃ k, k ≤ S.card ∧ IsRoot par (par^[k] x) := by
  intro x
  by_contra hno
  push_neg at hno
  have hmem : ∀ k, k ≤ S.card → par^[k] x ∈ S := by
    intro k hk
    by_contra hS
    exact hno k hk (inv.support _ hS)
  have hcard : S.card < (Finset.range (S.card + 1)).card := by simp
  obtain ⟨i, hi, j, hj, hne, heq⟩ :=
    Finset.exists_ne_map_eq_of_card_lt_of_maps_to hcard
      (fun k hk => hmem k (Nat.lt_succ_iff.mp (Finset.mem_range.mp hk)))
  rw [Finset.mem_range] at hi hj
  have hgen : ∀ a b : ℕ, a < b → b ≤ S.card → par^[b] x = par^[a] x → False := by
    intro a b hab hb hba
    have hsplit : par^[b] x = par^[b - a] (par^[a] x) := by
      rw [← Function.iterate_add_apply, Nat.sub_add_cancel (le_of_lt hab)]
    rw [hba] at hsplit
    have hcycle : par^[(b - a - 1) + 1] (par^[a] x) = par^[a] x := by
      have : b - a - 1 + 1 = b - a := by omega
      rw [this]
      exact hsplit.symm
    exact hno a (by omega) (uf_acyclic inv _ _ hcycle)
  rcases lt_or_gt_of_ne hne with hlt | hgt
  · exact hgen i j hlt (by omega) heq.symm
  · exact hgen j i hgt (by omega) heq

lemma iterate_mem_of_closed {S : Finset Coord} {par : Coord → Coord}
    (hcl : ∀ x ∈ S, par x ∈ S) {x : Coord} (hx : x ∈ S) : ∀ k, par^[k] x ∈ S := by
  intro k
  induction k with
  | zero => exact hx
  | succ k ih => rw [Function.iterate_succ_apply']; exact hcl _ ih

lemma bounded_update {p : Coord → Coord}
    (hb : ∃ rank : Coord → ℕ, ∀ z, p z ≠ z → rank (p z) < rank z)
    {x r : Coord} (hroot : p r = r) (hne : r ≠ x) :
    ∃ rank' : Coord → ℕ, ∀ z, Function.update p x r z ≠ z →
      rank' (Function.update p x r z) < rank' z := by
  obtain ⟨rank, hrank⟩ := hb
  refine ⟨fun z => if z = r then 0 else rank z + 1, ?_⟩
  intro z hz
  dsimp only
  by_cases hzx : z = x
  · rw [hzx, Function.update_same] at hz ⊢
    rw [if_pos rfl, if_neg (fun h => hne h.symm)]
    omega
  · rw [Function.update_noteq hzx] at hz ⊢
    have hzr : z ≠ r := by
      intro h
      rw [h] at hz
      exact hz hroot
    rw [if_neg hzr]
    by_cases hpz : p z = r
    · rw [hpz, if_pos rfl]
      omega
    · rw [if_neg hpz]
      exact Nat.succ_lt_succ (hrank z hz)

/-- Path compression does not change the root of any node. -/
lemma rootedAt_update_compress {p : Coord → Coord} {x r : Coord}
    (hR : RootedAt p x r) (hxnr : p x ≠ x) :
    ∀ y s, RootedAt (Function.update p x r) y s ↔ RootedAt p y s := by
  have hxr : x ≠ r := by
    intro h
    apply hxnr
    rw [h] at hxnr ⊢
    exact hR.2
  have hrootiff : ∀ z, IsRoot (Function.update p x r) z ↔ IsRoot p z := by
    intro z
    by_cases hz : z = x
    · subst hz
      unfold IsRoot
      rw [Function.update_same]
      constructor
      · intro h; exact absurd h.symm hxr
      · intro h; exact absurd h hxnr
    · unfold IsRoot
      rw [Function.update_noteq hz]
  have hfwd : ∀ k (y s : Coord), (Function.update p x r)^[k] y = s →
      IsRoot (Function.update p x r) s → RootedAt p y s := by
    intro k
    induction k with
    | zero =>
      intro y s hk hs
      simp only [Function.iterate_zero_apply] at hk
      subst hk
      exact ⟨⟨0, rfl⟩, (hrootiff y).mp hs⟩
    | succ k ih =>
      intro y s hk hs
      by_cases hy : IsRoot (Function.update p x r) y
      · have hys : s = y := by rw [← hk, isRoot_iterate hy]
        subst hys
        exact ⟨⟨0, rfl⟩, (hrootiff s).mp hy⟩
      · by_cases hyx : y = x
        · rw [Function.iterate_succ_apply, hyx, Function.update_same] at hk
          have hrr : IsRoot (Function.update p x r) r := (hrootiff r).mpr hR.2
          have hsr : s = r := by rw [← hk, isRoot_iterate hrr]
          rw [hyx, hsr]
          exact hR
        · have hstep : Function.update p x r y = p y := Function.update_noteq hyx r p
          rw [Function.iterate_succ_apply, hstep] at hk
          obtain ⟨⟨k0, hk0⟩, hs0⟩ := ih (p y) s hk hs
          exact ⟨⟨k0 + 1, by rw [Function.iterate_succ_apply]; exact hk0⟩, hs0⟩
  have hbwd : ∀ k (y s : Coord), p^[k] y = s → IsRoot p s →
      RootedAt (Function.update p x r) y s := by
    intro k
    induction k with
    | zero =>
      intro y s hk hs
      simp only [Function.iterate_zero_apply] at hk
      subst hk
      exact ⟨⟨0, rfl⟩, (hrootiff y).mpr hs⟩
    | succ k ih =>
      intro y s hk hs
      by_cases hy : IsRoot p y
      · have hys : s = y := by rw [← hk, isRoot_iterate hy]
        subst hys
        exact ⟨⟨0, rfl⟩, (hrootiff s).mpr hy⟩
      · by_cases hyx : y = x
        · have hk' : p^[k+1] x = s := by rw [← hyx]; exact hk
          have hsr : s = r := rootedAt_unique ⟨⟨k+1, hk'⟩, hs⟩ hR
          rw [hyx, hsr]
          refine ⟨⟨1, ?_⟩, (hrootiff r).mpr hR.2⟩
          simp [Function.update_same]
        · have hstep : Function.update p x r y = p y := Function.update_noteq hyx r p
          rw [Function.iterate_succ_apply] at hk
          obtain ⟨⟨k0, hk0⟩, hs0⟩ := ih (p y) s hk hs
          exact ⟨⟨k0 + 1, by rw [Function.iterate_succ_apply, hstep]; exact hk0⟩, hs0⟩
  intro y s
  constructor
  · intro ⟨⟨k, hk⟩, hs⟩
    exact hfwd k y s hk hs
  · intro ⟨⟨k, hk⟩, hs⟩
    exact hbwd k y s hk hs

/-- Redirecting one root to another: the root of a node becomes ra exactly
when it was rb, and is unchanged otherwise. -/
lemma rootedAt_update_union {p : Coord → Coord} {ra rb : Coord}
    (hra : IsRoot p ra) (hrb : IsRoot p rb) (hne : ra ≠ rb) :
    ∀ y s, RootedAt (Function.update p rb ra) y s ↔
      ((RootedAt p y s ∧ s ≠ rb) ∨ (RootedAt p y rb ∧ s = ra)) := by
  have hra' : IsRoot (Function.update p rb ra) ra := by
    unfold IsRoot
    rw [Function.update_noteq hne]
    exact hra
  have hrootiff : ∀ z, IsRoot (Function.update p rb ra) z ↔ (IsRoot p z ∧ z ≠ rb) := by
    intro z
    by_cases hz : z = rb
    · subst hz
      unfold IsRoot
      rw [Function.update_same]
      constructor
      · intro h; exact absurd h hne
      · intro h; exact absurd rfl h.2
    · unfold IsRoot
      rw [Function.update_noteq hz]
      exact ⟨fun h => ⟨h, hz⟩, fun h => h.1⟩
  have hfwd : ∀ k (y s : Coord), (Function.update p rb ra)^[k] y = s →
      IsRoot (Function.update p rb ra) s →
      ((RootedAt p y s ∧ s ≠ rb) ∨ (RootedAt p y rb ∧ s = ra)) := by
    intro k
    induction k with
    | zero =>
      intro y s hk hs
      simp only [Function.iterate_zero_apply] at hk
      subst hk
      have := (hrootiff y).mp hs
      exact Or.inl ⟨⟨⟨0, rfl⟩, this.1⟩, this.2⟩
    | succ k ih =>
      intro y s hk hs
      by_cases hy : IsRoot (Function.update p rb ra) y
      · have hys : s = y := by rw [← hk, isRoot_iterate hy]
        subst hys
        have := (hrootiff s).mp hy
        exact Or.inl ⟨⟨⟨0, rfl⟩, this.1⟩, this.2⟩
      · by_cases hyrb : y = rb
        · rw [Function.iterate_succ_apply, hyrb, Function.update_same] at hk
          have hsra : s = ra := by rw [← hk, isRoot_iterate hra']
          rw [hyrb, hsra]
          exact Or.inr ⟨⟨⟨0, rfl⟩, hrb⟩, rfl⟩
        · have hstep : Function.update p rb ra y = p y := Function.update_noteq hyrb ra p
          rw [Function.iterate_succ_apply, hstep] at hk
          rcases ih (p y) s hk hs with ⟨⟨⟨k0, hk0⟩, hs0⟩, hsn⟩ | ⟨⟨⟨k0, hk0⟩, hs0⟩, hsa⟩
          · exact Or.inl ⟨⟨⟨k0 + 1, by rw [Function.iterate_succ_apply]; exact hk0⟩, hs0⟩, hsn⟩
          · exact Or.inr ⟨⟨⟨k0 + 1, by rw [Function.iterate_succ_apply]; exact hk0⟩, hs0⟩, hsa⟩
  have hbwd1 : ∀ k (y : Coord), p^[k] y = rb →
      RootedAt (Function.update p rb ra) y ra := by
    intro k
    induction k with
    | zero =>
      intro y hk
      simp only [Function.iterate_zero_apply] at hk
      rw [hk]
      exact ⟨⟨1, by simp [Function.update_same]⟩, hra'⟩
    | succ k ih =>
      intro y hk
      by_cases hyrb : y = rb
      · rw [hyrb]
        exact ⟨⟨1, by simp [Function.update_same]⟩, hra'⟩
      · by_cases hy : IsRoot p y
        · have hrby : rb = y := by rw [← hk, isRoot_iterate hy]
          exact absurd hrby.symm hyrb
        · have hstep : Function.update p rb ra y = p y := Function.update_noteq hyrb ra p
          rw [Function.iterate_succ_apply] at hk
          obtain ⟨⟨k0, hk0⟩, hs0⟩ := ih (p y) hk
          exact ⟨⟨k0 + 1, by rw [Function.iterate_succ_apply, hstep]; exact hk0⟩, hs0⟩
  have hbwd2 : ∀ k (y s : Coord), p^[k] y = s → IsRoot p s → s ≠ rb →
      RootedAt (Function.update p rb ra) y s := by
    intro k
    induction k with
    | zero =>
      intro y s hk hs hsn
      simp only [Function.iterate_zero_apply] at hk
      subst hk
      exact ⟨⟨0, rfl⟩, (hrootiff y).mpr ⟨hs, hsn⟩⟩
    | succ k ih =>
      intro y s hk hs hsn
      by_cases hy : IsRoot p y
      · have hys : s = y := by rw [← hk, isRoot_iterate hy]
        subst hys
        exact ⟨⟨0, rfl⟩, (hrootiff s).mpr ⟨hy, hsn⟩⟩
      · have hyrb : y ≠ rb := by
          intro h
          subst h
          exact hy hrb
        have hstep : Function.update p rb ra y = p y := Function.update_noteq hyrb ra p
        rw [Function.iterate_succ_apply] at hk
        obtain ⟨⟨k0, hk0⟩, hs0⟩ := ih (p y) s hk hs hsn
        exact ⟨⟨k0 + 1, by rw [Function.iterate_succ_apply, hstep]; exact hk0⟩, hs0⟩
  intro y s
  constructor
  · intro ⟨⟨k, hk⟩, hs⟩
    exact hfwd k y s hk hs
  · intro h
    rcases h with ⟨⟨⟨k, hk⟩, hs⟩, hsn⟩ | ⟨⟨⟨k, hk⟩, _⟩, hsa⟩
    · exact hbwd2 k y s hk hs hsn
    · subst hsa
      exact hbwd1 k y hk

/-- Full specification of find: it returns the root of its argument and a
compressed map with the same invariant and unchanged root assignment. -/
lemma findA_spec {S : Finset Coord} : ∀ (fuel : ℕ) (par : Coord → Coord) (x : Coord),
    UFInv S par → (∃ k, k < fuel ∧ IsRoot par (par^[k] x)) →
    RootedAt par x (findA fuel par x).1 ∧
    UFInv S (findA fuel par x).2 ∧
    (∀ y s, RootedAt (findA fuel par x).2 y s ↔ RootedAt par y s) := by
  intro fuel
  induction fuel with
  | zero =>
    intro par x inv hd
    obtain ⟨k, hk, _⟩ := hd
    omega
  | succ fuel ih =>
    intro par x inv hd
    by_cases hroot : par x = x
    · simp only [findA]
      rw [if_pos hroot]
      exact ⟨⟨⟨0, rfl⟩, hroot⟩, inv, fun y s => Iff.rfl⟩
    · obtain ⟨k, hk, hkr⟩ := hd
      have hk0 : k ≠ 0 := by
        intro h0
        subst h0
        simp only [Function.iterate_zero_apply] at hkr
        exact hroot hkr
      have hd' : ∃ k', k' < fuel ∧ IsRoot par (par^[k'] (par x)) := by
        obtain ⟨k', rfl⟩ : ∃ k', k = k' + 1 := ⟨k - 1, by omega⟩
        refine ⟨k', by omega, ?_⟩
        rw [Function.iterate_succ_apply] at hkr
        exact hkr
      obtain ⟨hr1, hinv1, hiff1⟩ := ih par (par x) inv hd'
      simp only [findA]
      rw [if_neg hroot]
      dsimp only
      have hRx : RootedAt par x (findA fuel par (par x)).1 := by
        obtain ⟨⟨k0, hk0'⟩, hr0⟩ := hr1
        exact ⟨⟨k0 + 1, by rw [Function.iterate_succ_apply]; exact hk0'⟩, hr0⟩
      have hxS : x ∈ S := by
        by_contra hxs
        exact hroot (inv.support x hxs)
      have hRx1 : RootedAt (findA fuel par (par x)).2 x (findA fuel par (par x)).1 :=
        (hiff1 x _).mpr hRx
      have hxnr1 : (findA fuel par (par x)).2 x ≠ x := by
        intro hfix
        have : RootedAt par x x := (hiff1 x x).mp ⟨⟨0, rfl⟩, hfix⟩
        exact hroot this.2
      refine ⟨hRx, ?_, ?_⟩
      · constructor
        · intro z hz
          have hzx : z ≠ x := fun h => hz (h ▸ hxS)
          rw [Function.update_noteq hzx]
          exact hinv1.support z hz
        · intro z hz
          by_cases hzx : z = x
          · subst hzx
            rw [Function.update_same]
            obtain ⟨⟨k0, hk0'⟩, _⟩ := hRx
            rw [← hk0']
            exact iterate_mem_of_closed inv.closed hxS k0
          · rw [Function.update_noteq hzx]
            exact hinv1.closed z hz
        · have hner : (findA fuel par (par x)).1 ≠ x := by
            intro h
            apply hxnr1
            have hfix := hRx1.2
            rw [h] at hfix
            exact hfix
          exact bounded_update hinv1.bounded hRx1.2 hner
      · intro y s
        exact (rootedAt_update_compress hRx1 hxnr1 y s).trans (hiff1 y s)

lemma sameRoot_refl {S : Finset Coord} {par : Coord → Coord} (inv : UFInv S par) (y : Coord) :
    SameRoot par y y := by
  obtain ⟨k, _, hkr⟩ := uf_depth inv y
  exact ⟨par^[k] y, ⟨⟨k, rfl⟩, hkr⟩, ⟨⟨k, rfl⟩, hkr⟩⟩

lemma sameRoot_symm {par : Coord → Coord} {y z : Coord} (h : SameRoot par y z) :
    SameRoot par z y := by
  obtain ⟨r, h1, h2⟩ := h
  exact ⟨r, h2, h1⟩

lemma sameRoot_trans {par : Coord → Coord} {x y z : Coord}
    (h1 : SameRoot par x y) (h2 : SameRoot par y z) : SameRoot par x z := by
  obtain ⟨r1, ha, hb⟩ := h1
  obtain ⟨r2, hc, hd⟩ := h2
  have heq := rootedAt_unique hb hc
  exact ⟨r1, ha, by rw [heq]; exact hd⟩

lemma sameRoot_of_rooted {par : Coord → Coord} {y a ra : Coord}
    (h : SameRoot par y a) (hra : RootedAt par a ra) : RootedAt par y ra := by
  obtain ⟨r, hy, ha⟩ := h
  have heq := rootedAt_unique ha hra
  rw [← heq]
  exact hy

/-- Specification of union: the invariant is preserved and the same-root
relation becomes the previous one with the classes of a and b merged. -/
lemma unionA_spec {S : Finset Coord} (fuel : ℕ) (par : Coord → Coord) (a b : Coord)
    (inv : UFInv S par) (hfuel : S.card < fuel) (ha : a ∈ S) (hb : b ∈ S) :
    UFInv S (unionA fuel par a b) ∧
    (∀ y z, SameRoot (unionA fuel par a b) y z ↔
      (SameRoot par y z ∨ (SameRoot par y a ∧ SameRoot par b z) ∨
       (SameRoot par y b ∧ SameRoot par a z))) := by
  have hda : ∃ k, k < fuel ∧ IsRoot par (par^[k] a) := by
    obtain ⟨k, hk, h⟩ := uf_depth inv a
    exact ⟨k, by omega, h⟩
  obtain ⟨hra, hinv1, hiff1⟩ := findA_spec fuel par a inv hda
  have hdb : ∃ k, k < fuel ∧ IsRoot (findA fuel par a).2 ((findA fuel par a).2^[k] b) := by
    obtain ⟨k, hk, h⟩ := uf_depth hinv1 b
    exact ⟨k, by omega, h⟩
  obtain ⟨hrb1, hinv2, hiff2⟩ := findA_spec fuel (findA fuel par a).2 b hinv1 hdb
  have hiff : ∀ y s, RootedAt (findA fuel (findA fuel par a).2 b).2 y s ↔ RootedAt par y s :=
    fun y s => (hiff2 y s).trans (hiff1 y s)
  have hrb : RootedAt par b (findA fuel (findA fuel par a).2 b).1 := by
    have := hrb1
    rw [hiff1] at this
    exact this
  have hraS : (findA fuel par a).1 ∈ S := by
    obtain ⟨⟨k, hk⟩, _⟩ := hra
    rw [← hk]
    exact iterate_mem_of_closed inv.closed ha k
  have hrbS : (findA fuel (findA fuel par a).2 b).1 ∈ S := by
    obtain ⟨⟨k, hk⟩, _⟩ := hrb
    rw [← hk]
    exact iterate_mem_of_closed inv.closed hb k
  have hrap2 : IsRoot (findA fuel (findA fuel par a).2 b).2 (findA fuel par a).1 := by
    have : RootedAt par (findA fuel par a).1 (findA fuel par a).1 := ⟨⟨0, rfl⟩, hra.2⟩
    rw [← hiff] at this
    exact this.2
  have hrbp2 : IsRoot (findA fuel (findA fuel par a).2 b).2 (findA fuel (findA fuel par a).2 b).1 := by
    have : RootedAt par (findA fuel (findA fuel par a).2 b).1 (findA fuel (findA fuel par a).2 b).1 :=
      ⟨⟨0, rfl⟩, hrb.2⟩
    rw [← hiff] at this
    exact this.2
  simp only [unionA]
  by_cases hne : (findA fuel par a).1 = (findA fuel (findA fuel par a).2 b).1
  · rw [if_neg (by simp [hne])]
    have hab : SameRoot par a b := by
      refine ⟨(findA fuel par a).1, hra, ?_⟩
      rw [hne]
      exact hrb
    refine ⟨hinv2, ?_⟩
    intro y z
    have hsame : SameRoot (findA fuel (findA fuel par a).2 b).2 y z ↔ SameRoot par y z := by
      constructor
      · intro ⟨r, h1, h2⟩
        exact ⟨r, (hiff y r).mp h1, (hiff z r).mp h2⟩
      · intro ⟨r, h1, h2⟩
        exact ⟨r, (hiff y r).mpr h1, (hiff z r).mpr h2⟩
    rw [hsame]
    constructor
    · intro h
      exact Or.inl h
    · intro h
      rcases h with h | ⟨h1, h2⟩ | ⟨h1, h2⟩
      · exact h
      · exact sameRoot_trans (sameRoot_trans h1 hab) h2
      · exact sameRoot_trans (sameRoot_trans h1 (sameRoot_symm hab)) h2
  · rw [if_pos hne]
    have hchar := rootedAt_update_union hrap2 hrbp2 hne
    constructor
    · constructor
      · intro z hz
        have hzrb : z ≠ (findA fuel (findA fuel par a).2 b).1 := fun h => hz (h ▸ hrbS)
        rw [Function.update_noteq hzrb]
        exact hinv2.support z hz
      · intro z hz
        by_cases hzrb : z = (findA fuel (findA fuel par a).2 b).1
        · rw [hzrb, Function.update_same]
          exact hraS
        · rw [Function.update_noteq hzrb]
          exact hinv2.closed z hz
      · exact bounded_update hinv2.bounded hrap2 hne
    · intro y z
      constructor
      · intro ⟨s, hy, hz⟩
        rw [hchar] at hy hz
        rcases hy with ⟨hy, hsn⟩ | ⟨hy, hsa⟩ <;> rcases hz with ⟨hz, hsn'⟩ | ⟨hz, hsa'⟩
        · exact Or.inl ⟨s, (hiff y s).mp hy, (hiff z s).mp hz⟩
        · -- y rooted at s = ra, z rooted at rb
          rw [hsa'] at hy hsn
          exact Or.inr (Or.inl ⟨⟨(findA fuel par a).1, (hiff y _).mp hy, hra⟩,
            ⟨(findA fuel (findA fuel par a).2 b).1, hrb, (hiff z _).mp hz⟩⟩)
        · rw [hsa] at hz hsn'
          exact Or.inr (Or.inr ⟨⟨(findA fuel (findA fuel par a).2 b).1, (hiff y _).mp hy, hrb⟩,
            ⟨(findA fuel par a).1, hra, (hiff z _).mp hz⟩⟩)
        · exact Or.inl ⟨(findA fuel (findA fuel par a).2 b).1,
            (hiff y _).mp hy, (hiff z _).mp hz⟩
      · intro h
        rcases h with ⟨r, hy, hz⟩ | ⟨h1, h2⟩ | ⟨h1, h2⟩
        · by_cases hrrb : r = (findA fuel (findA fuel par a).2 b).1
          · refine ⟨(findA fuel par a).1, ?_, ?_⟩
            · rw [hchar]
              exact Or.inr ⟨(hiff y _).mpr (by rw [← hrrb]; exact hy), rfl⟩
            · rw [hchar]
              exact Or.inr ⟨(hiff z _).mpr (by rw [← hrrb]; exact hz), rfl⟩
          · refine ⟨r, ?_, ?_⟩
            · rw [hchar]
              exact Or.inl ⟨(hiff y r).mpr hy, hrrb⟩
            · rw [hchar]
              exact Or.inl ⟨(hiff z r).mpr hz, hrrb⟩
        · -- y in the class of a, z in the class of b
          have hyra : RootedAt par y (findA fuel par a).1 := sameRoot_of_rooted h1 hra
          have hzrb : RootedAt par z (findA fuel (findA fuel par a).2 b).1 :=
            sameRoot_of_rooted (sameRoot_symm h2) hrb
          refine ⟨(findA fuel par a).1, ?_, ?_⟩
          · rw [hchar]
            exact Or.inl ⟨(hiff y _).mpr hyra, hne⟩
          · rw [hchar]
            exact Or.inr ⟨(hiff z _).mpr hzrb, rfl⟩
        · have hyrb : RootedAt par y (findA fuel (findA fuel par a).2 b).1 :=
            sameRoot_of_rooted h1 hrb
          have hzra : RootedAt par z (findA fuel par a).1 := sameRoot_of_rooted (sameRoot_symm h2) hra
          refine ⟨(findA fuel par a).1, ?_, ?_⟩
          · rw [hchar]
            exact Or.inr ⟨(hiff y _).mpr hyrb, rfl⟩
          · rw [hchar]
            exact Or.inl ⟨(hiff z _).mpr hzra, hne⟩

lemma conn_nil {y z : Coord} : conn [] y z ↔ y = z := by
  constructor
  · intro h
    induction h with
    | rel x y h => rcases h with h | h <;> exact absurd h (List.not_mem_nil _)
    | refl x => rfl
    | symm x y _ ih => exact ih.symm
    | trans x y z _ _ ih1 ih2 => exact ih1.trans ih2
  · intro h
    rw [h]
    exact Relation.EqvGen.refl z

lemma conn_mono {E E' : List (Coord × Coord)} (hsub : ∀ e ∈ E, e ∈ E') {y z : Coord}
    (h : conn E y z) : conn E' y z := by
  induction h with
  | rel x y h =>
    apply Relation.EqvGen.rel
    rcases h with h | h
    · exact Or.inl (hsub _ h)
    · exact Or.inr (hsub _ h)
  | refl x => exact Relation.EqvGen.refl x
  | symm x y _ ih => exact Relation.EqvGen.symm x y ih
  | trans x y z _ _ ih1 ih2 => exact Relation.EqvGen.trans x y z ih1 ih2

lemma conn_symm {E : List (Coord × Coord)} {y z : Coord} (h : conn E y z) : conn E z y :=
  Relation.EqvGen.symm y z h

lemma conn_trans {E : List (Coord × Coord)} {x y z : Coord}
    (h1 : conn E x y) (h2 : conn E y z) : conn E x z :=
  Relation.EqvGen.trans x y z h1 h2

/-- Adding one edge to the closure merges exactly the classes of its two
endpoints. -/
lemma conn_append_single (processed : List (Coord × Coord)) (a b : Coord) :
    ∀ y z, conn (processed ++ [(a, b)]) y z ↔
      (conn processed y z ∨ (conn processed y a ∧ conn processed b z) ∨
       (conn processed y b ∧ conn processed a z)) := by
  intro y z
  constructor
  · intro h
    induction h with
    | rel x y h =>
      rcases h with h | h <;> rw [List.mem_append] at h
      · rcases h with h | h
        · exact Or.inl (Relation.EqvGen.rel _ _ (Or.inl h))
        · rw [List.mem_singleton] at h
          rw [Prod.mk.injEq] at h
          exact Or.inr (Or.inl ⟨by rw [h.1]; exact Relation.EqvGen.refl a,
            by rw [h.2]; exact Relation.EqvGen.refl b⟩)
      · rcases h with h | h
        · exact Or.inl (Relation.EqvGen.rel _ _ (Or.inr h))
        · rw [List.mem_singleton] at h
          rw [Prod.mk.injEq] at h
          exact Or.inr (Or.inr ⟨by rw [h.2]; exact Relation.EqvGen.refl b,
            by rw [h.1]; exact Relation.EqvGen.refl a⟩)
    | refl x => exact Or.inl (Relation.EqvGen.refl x)
    | symm x y _ ih =>
      rcases ih with h | ⟨h1, h2⟩ | ⟨h1, h2⟩
      · exact Or.inl (conn_symm h)
      · exact Or.inr (Or.inr ⟨conn_symm h2, conn_symm h1⟩)
      · exact Or.inr (Or.inl ⟨conn_symm h2, conn_symm h1⟩)
    | trans x y z _ _ ih1 ih2 =>
      rcases ih1 with h | ⟨h1, h2⟩ | ⟨h1, h2⟩ <;> rcases ih2 with h' | ⟨h1', h2'⟩ | ⟨h1', h2'⟩
      · exact Or.inl (conn_trans h h')
      · exact Or.inr (Or.inl ⟨conn_trans h h1', h2'⟩)
      · exact Or.inr (Or.inr ⟨conn_trans h h1', h2'⟩)
      · exact Or.inr (Or.inl ⟨h1, conn_trans h2 h'⟩)
      · exact Or.inl (conn_trans (conn_trans h1 (conn_symm (conn_trans h2 h1'))) h2')
      · exact Or.inl (conn_trans h1 h2')
      · exact Or.inr (Or.inr ⟨h1, conn_trans h2 h'⟩)
      · exact Or.inl (conn_trans h1 h2')
      · exact Or.inl (conn_trans (conn_trans h1 (conn_symm (conn_trans h2 h1'))) h2')
  · intro h
    have hmono : ∀ u v, conn processed u v → conn (processed ++ [(a, b)]) u v :=
      fun u v h => conn_mono (fun e he => List.mem_append_left _ he) h
    have hab : conn (processed ++ [(a, b)]) a b :=
      Relation.EqvGen.rel _ _ (Or.inl (List.mem_append_right _ (List.mem_singleton.mpr rfl)))
    rcases h with h | ⟨h1, h2⟩ | ⟨h1, h2⟩
    · exact hmono _ _ h
    · exact conn_trans (conn_trans (hmono _ _ h1) hab) (hmono _ _ h2)
    · exact conn_trans (conn_trans (hmono _ _ h1) (conn_symm hab)) (hmono _ _ h2)

/-- The union fold over the edges computes exactly the connectivity closure
of the processed edges. -/
lemma ufParent_fold {S : Finset Coord} (fuel : ℕ) (hfuel : S.card < fuel) :
    ∀ (rest processed : List (Coord × Coord)) (par : Coord → Coord),
    UFInv S par →
    (∀ e ∈ rest, e.1 ∈ S ∧ e.2 ∈ S) →
    (∀ y z, SameRoot par y z ↔ conn processed y z) →
    UFInv S (rest.foldl (fun p e => unionA fuel p e.1 e.2) par) ∧
    (∀ y z, SameRoot (rest.foldl (fun p e => unionA fuel p e.1 e.2) par) y z ↔
      conn (processed ++ rest) y z) := by
  intro rest
  induction rest with
  | nil =>
    intro processed par inv _ hs
    refine ⟨inv, ?_⟩
    simpa using hs
  | cons e rest ih =>
    intro processed par inv hE hs
    obtain ⟨hinv', hsr'⟩ := unionA_spec fuel par e.1 e.2 inv hfuel
      (hE e (List.mem_cons_self e rest)).1 (hE e (List.mem_cons_self e rest)).2
    have hs' : ∀ y z, SameRoot (unionA fuel par e.1 e.2) y z ↔ conn (processed ++ [e]) y z := by
      intro y z
      rw [hsr' y z, conn_append_single processed e.1 e.2 y z]
      exact or_congr (hs y z) (or_congr (and_congr (hs y e.1) (hs e.2 z))
        (and_congr (hs y e.2) (hs e.1 z)))
    have hres := ih (processed ++ [e]) (unionA fuel par e.1 e.2) hinv'
      (fun e' he' => hE e' (List.mem_cons_of_mem e he')) hs'
    constructor
    · exact hres.1
    · intro y z
      rw [List.foldl_cons]
      rw [(hres.2 y z)]
      have : processed ++ [e] ++ rest = processed ++ e :: rest := by
        rw [List.append_assoc]
        rfl
      rw [this]

/-- Specification of the whole union pass, started from the identity map. -/
lemma ufParent_spec {S : Finset Coord} (fuel : ℕ) (hfuel : S.card < fuel)
    (edges : List (Coord × Coord)) (hE : ∀ e ∈ edges, e.1 ∈ S ∧ e.2 ∈ S) :
    UFInv S (ufParent fuel edges) ∧
    (∀ y z, SameRoot (ufParent fuel edges) y z ↔ conn edges y z) := by
  have h0 : UFInv S id := by
    refine ⟨fun x _ => rfl, fun x hx => hx, ⟨fun _ => 0, fun x hx => absurd rfl hx⟩⟩
  have hid : ∀ y r : Coord, RootedAt id y r ↔ y = r := by
    intro y r
    constructor
    · intro ⟨⟨k, hk⟩, _⟩
      rw [Function.iterate_id] at hk
      exact hk
    · intro h
      exact ⟨⟨0, h⟩, rfl⟩
  have hiff0 : ∀ y z : Coord, SameRoot id y z ↔ conn [] y z := by
    intro y z
    rw [conn_nil]
    constructor
    · intro ⟨r, h1, h2⟩
      rw [hid] at h1 h2
      rw [h1, h2]
    · intro h
      exact ⟨z, (hid y z).mpr h, (hid z z).mpr rfl⟩
  have hres := ufParent_fold fuel hfuel edges [] id h0 hE hiff0
  constructor
  · exact hres.1
  · intro y z
    have := hres.2 y z
    simpa [ufParent] using this

lemma addGroup_prop {P : Coord → Coord → Prop} :
    ∀ {gs : List (Coord × List Coord)} {r n : Coord},
    (∀ g ∈ gs, ∀ m ∈ g.2, P g.1 m) → P r n →
    ∀ g ∈ addGroup gs r n, ∀ m ∈ g.2, P g.1 m := by
  intro gs
  induction gs with
  | nil =>
    intro r n _ hn g hg m hm
    simp only [addGroup, List.mem_singleton] at hg
    rw [hg] at hm ⊢
    simp only [List.mem_singleton] at hm
    rw [hm]
    exact hn
  | cons g0 rest ih =>
    intro r n hgs hn g hg m hm
    simp only [addGroup] at hg
    by_cases hk : g0.1 = r
    · rw [if_pos hk] at hg
      rcases List.mem_cons.mp hg with hg | hg
      · rw [hg] at hm ⊢
        rcases List.mem_append.mp hm with hm | hm
        · exact hgs g0 (List.mem_cons_self g0 rest) m hm
        · simp only [List.mem_singleton] at hm
          rw [hm]
          dsimp only
          rw [hk]
          exact hn
      · exact hgs g (List.mem_cons_of_mem g0 hg) m hm
    · rw [if_neg hk] at hg
      rcases List.mem_cons.mp hg with hg | hg
      · rw [hg] at hm ⊢
        exact hgs g0 (List.mem_cons_self g0 rest) m hm
      · exact ih (fun g' hg' => hgs g' (List.mem_cons_of_mem g0 hg')) hn g hg m hm

lemma addGroup_keys : ∀ (gs : List (Coord × List Coord)) (r n : Coord),
    (addGroup gs r n).map Prod.fst
      = if r ∈ gs.map Prod.fst then gs.map Prod.fst else gs.map Prod.fst ++ [r] := by
  intro gs
  induction gs with
  | nil =>
    intro r n
    simp [addGroup]
  | cons g0 rest ih =>
    intro r n
    simp only [addGroup, List.map_cons]
    by_cases hk : g0.1 = r
    · rw [if_pos hk]
      rw [if_pos (by rw [List.mem_cons]; exact Or.inl hk.symm)]
      simp
    · rw [if_neg hk]
      simp only [List.map_cons, ih]
      by_cases hmem : r ∈ rest.map Prod.fst
      · rw [if_pos hmem, if_pos (by rw [List.mem_cons]; exact Or.inr hmem)]
      · rw [if_neg hmem, if_neg (by
          rw [List.mem_cons]
          rintro (h | h)
          · exact hk h.symm
          · exact hmem h)]
        simp

lemma addGroup_keys_nodup {gs : List (Coord × List Coord)} {r n : Coord}
    (h : (gs.map Prod.fst).Nodup) : ((addGroup gs r n).map Prod.fst).Nodup := by
  rw [addGroup_keys]
  by_cases hmem : r ∈ gs.map Prod.fst
  · rw [if_pos hmem]
    exact h
  · rw [if_neg hmem]
    rw [List.nodup_append]
    exact ⟨h, List.nodup_singleton r, by
      intro a ha hb
      simp only [List.mem_singleton] at hb
      rw [hb] at ha
      exact hmem ha⟩

lemma addGroup_members_perm : ∀ (gs : List (Coord × List Coord)) (r n : Coord),
    (membersAll (addGroup gs r n)).Perm (membersAll gs ++ [n]) := by
  intro gs
  induction gs with
  | nil =>
    intro r n
    simp [addGroup, membersAll]
  | cons g0 rest ih =>
    intro r n
    simp only [addGroup]
    by_cases hk : g0.1 = r
    · rw [if_pos hk]
      show (g0.2 ++ [n] ++ membersAll rest).Perm ((g0.2 ++ membersAll rest) ++ [n])
      rw [List.append_assoc, List.append_assoc]
      exact List.Perm.append_left g0.2 List.perm_append_comm
    · rw [if_neg hk]
      show (g0.2 ++ membersAll (addGroup rest r n)).Perm ((g0.2 ++ membersAll rest) ++ [n])
      rw [List.append_assoc]
      exact List.Perm.append_left g0.2 (ih r n)

/-- The grouping pass: roots are unchanged by the compressions it performs,
every member is rooted at its group key, keys stay distinct, and the
members are exactly the previously grouped ones plus the processed nodes. -/
lemma groupsPass_spec {S : Finset Coord} (fuel : ℕ) (par0 : Coord → Coord)
    (hfuel : S.card < fuel) :
    ∀ (ns : List Coord) (par : Coord → Coord) (gs : List (Coord × List Coord)),
    UFInv S par →
    (∀ y s, RootedAt par y s ↔ RootedAt par0 y s) →
    (∀ g ∈ gs, ∀ m ∈ g.2, RootedAt par0 m g.1) →
    ((gs.map Prod.fst).Nodup) →
    (∀ g ∈ groupsPass fuel ns par gs, ∀ m ∈ g.2, RootedAt par0 m g.1) ∧
    (((groupsPass fuel ns par gs).map Prod.fst).Nodup) ∧
    ((membersAll (groupsPass fuel ns par gs)).Perm (membersAll gs ++ ns)) := by
  intro ns
  induction ns with
  | nil =>
    intro par gs inv hiffc hmem hkeys
    simp only [groupsPass]
    exact ⟨hmem, hkeys, by simp⟩
  | cons n rest ih =>
    intro par gs inv hiffc hmem hkeys
    have hd : ∃ k, k < fuel ∧ IsRoot par (par^[k] n) := by
      obtain ⟨k, hk, h⟩ := uf_depth inv n
      exact ⟨k, by omega, h⟩
    obtain ⟨hrn, hinv', hiff'⟩ := findA_spec fuel par n inv hd
    have hrn0 : RootedAt par0 n (findA fuel par n).1 := (hiffc n _).mp hrn
    simp only [groupsPass]
    have hres := ih ((findA fuel par n).2) (addGroup gs (findA fuel par n).1 n) hinv'
      (fun y s => (hiff' y s).trans (hiffc y s))
      (@addGroup_prop (fun key m => RootedAt par0 m key) gs (findA fuel par n).1 n hmem hrn0)
      (addGroup_keys_nodup hkeys)
    refine ⟨hres.1, hres.2.1, ?_⟩
    have h1 := hres.2.2
    have h2 : (membersAll (addGroup gs (findA fuel par n).1 n) ++ rest).Perm
        ((membersAll gs ++ [n]) ++ rest) :=
      List.Perm.append_right rest (addGroup_members_perm gs _ n)
    have h3 : (membersAll gs ++ [n]) ++ rest = membersAll gs ++ (n :: rest) := by
      rw [List.append_assoc]
      rfl
    rw [h3] at h2
    exact h1.trans h2

/-- Main union-find correctness: the groups of unionfind are exactly the
connected components of the edge list, and partition the nodes. -/
lemma unionfind_spec (nodes : List Coord) (edges : List (Coord × Coord))
    (hE : ∀ e ∈ edges, e.1 ∈ nodes ∧ e.2 ∈ nodes) :
    (∀ g ∈ unionfind nodes edges, ∀ m1 ∈ g.2, ∀ m2 ∈ g.2, conn edges m1 m2) ∧
    (∀ g1 ∈ unionfind nodes edges, ∀ g2 ∈ unionfind nodes edges,
      ∀ m1 ∈ g1.2, ∀ m2 ∈ g2.2, conn edges m1 m2 → g1 = g2) ∧
    (membersAll (unionfind nodes edges)).Perm nodes := by
  have hfuel : (nodes.toFinset).card < nodes.length + 1 := by
    have := nodes.toFinset_card_le
    omega
  have hES : ∀ e ∈ edges, e.1 ∈ nodes.toFinset ∧ e.2 ∈ nodes.toFinset := by
    intro e he
    rw [List.mem_toFinset, List.mem_toFinset]
    exact hE e he
  obtain ⟨hinv, hsame⟩ := ufParent_spec (nodes.length + 1) hfuel edges hES
  obtain ⟨hmem, hkeys, hperm⟩ := groupsPass_spec (nodes.length + 1)
    (ufParent (nodes.length + 1) edges) hfuel nodes (ufParent (nodes.length + 1) edges) []
    hinv (fun y s => Iff.rfl) (fun g hg => absurd hg (List.not_mem_nil g)) (by simp)
  refine ⟨?_, ?_, ?_⟩
  · intro g hg m1 h1 m2 h2
    exact (hsame m1 m2).mp ⟨g.1, hmem g hg m1 h1, hmem g hg m2 h2⟩
  · intro g1 hg1 g2 hg2 m1 h1 m2 h2 hconn
    obtain ⟨r, hr1, hr2⟩ := (hsame m1 m2).mpr hconn
    have e1 : g1.1 = r := rootedAt_unique (hmem g1 hg1 m1 h1) hr1
    have e2 : g2.1 = r := rootedAt_unique (hmem g2 hg2 m2 h2) hr2
    exact List.inj_on_of_nodup_map hkeys hg1 hg2 (by rw [e1, e2])
  · have : membersAll ([] : List (Coord × List Coord)) ++ nodes = nodes := rfl
    rw [this] at hperm
    exact hperm

/-- Every emitted net comes from a group with at least two pins and carries
exactly that pin list of that group. -/
lemma netsEmit_src (pinPos labels : Coord → Option String) :
    ∀ (gs : List (Coord × List Coord)) (idx : ℕ) (nm : String) (ps : List String),
    (nm, ps) ∈ netsEmit pinPos labels gs idx →
    ∃ g ∈ gs, ps = g.2.filterMap pinPos ∧ 2 ≤ ps.length := by
  intro gs
  induction gs with
  | nil =>
    intro idx nm ps h
    simp [netsEmit] at h
  | cons g0 rest ih =>
    intro idx nm ps h
    simp only [netsEmit] at h
    by_cases h2 : 2 ≤ (g0.2.filterMap pinPos).length
    · rw [if_pos h2] at h
      have hhead : ∀ nm0 idx', (nm, ps) ∈ (nm0, g0.2.filterMap pinPos) :: netsEmit pinPos labels rest idx' →
          ∃ g ∈ g0 :: rest, ps = g.2.filterMap pinPos ∧ 2 ≤ ps.length := by
        intro nm0 idx' hmem
        rcases List.mem_cons.mp hmem with hmem | hmem
        · rw [Prod.mk.injEq] at hmem
          refine ⟨g0, List.mem_cons_self g0 rest, hmem.2, ?_⟩
          rw [hmem.2]
          exact h2
        · obtain ⟨g, hg, hps⟩ := ih idx' nm ps hmem
          exact ⟨g, List.mem_cons_of_mem g0 hg, hps⟩
      by_cases hs : ((g0.2.filterMap labels).getLast?).getD ("") ≠ ""
      · rw [if_pos hs] at h
        exact hhead _ _ h
      · rw [if_neg hs] at h
        exact hhead _ _ h
    · rw [if_neg h2] at h
      obtain ⟨g, hg, hps⟩ := ih idx nm ps h
      exact ⟨g, List.mem_cons_of_mem g0 hg, hps⟩

/-- Every group with at least two pins is emitted: under its last label in
traversal order when that label is non-empty, under an auto-generated name
otherwise. -/
lemma netsEmit_emits (pinPos labels : Coord → Option String) :
    ∀ (gs : List (Coord × List Coord)) (idx : ℕ) (g : Coord × List Coord),
    g ∈ gs → 2 ≤ (g.2.filterMap pinPos).length →
    (((g.2.filterMap labels).getLast?).getD ("") ≠ "" →
      (((g.2.filterMap labels).getLast?).getD (""), g.2.filterMap pinPos)
        ∈ netsEmit pinPos labels gs idx) ∧
    (((g.2.filterMap labels).getLast?).getD ("") = "" →
      ∃ k : ℕ, ("N$" ++ toString k, g.2.filterMap pinPos) ∈ netsEmit pinPos labels gs idx) := by
  intro gs
  induction gs with
  | nil =>
    intro idx g hg _
    exact absurd hg (List.not_mem_nil g)
  | cons g0 rest ih =>
    intro idx g hg h2
    rcases List.mem_cons.mp hg with hg0 | hgr
    · subst hg0
      constructor
      · intro hs
        simp only [netsEmit]
        rw [if_pos h2, if_pos hs]
        exact List.mem_cons_self _ _
      · intro hs
        simp only [netsEmit]
        rw [if_pos h2, if_neg (by rw [hs]; exact fun hcon => hcon rfl)]
        exact ⟨idx, List.mem_cons_self _ _⟩
    · constructor
      · intro hs
        simp only [netsEmit]
        by_cases h02 : 2 ≤ (g0.2.filterMap pinPos).length
        · rw [if_pos h02]
          by_cases hs0 : ((g0.2.filterMap labels).getLast?).getD ("") ≠ ""
          · rw [if_pos hs0]
            exact List.mem_cons_of_mem _ ((ih idx g hgr h2).1 hs)
          · rw [if_neg hs0]
            exact List.mem_cons_of_mem _ ((ih (idx+1) g hgr h2).1 hs)
        · rw [if_neg h02]
          exact (ih idx g hgr h2).1 hs
      · intro hs
        simp only [netsEmit]
        by_cases h02 : 2 ≤ (g0.2.filterMap pinPos).length
        · rw [if_pos h02]
          by_cases hs0 : ((g0.2.filterMap labels).getLast?).getD ("") ≠ ""
          · rw [if_pos hs0]
            obtain ⟨k, hk⟩ := (ih idx g hgr h2).2 hs
            exact ⟨k, List.mem_cons_of_mem _ hk⟩
          · rw [if_neg hs0]
            obtain ⟨k, hk⟩ := (ih (idx+1) g hgr h2).2 hs
            exact ⟨k, List.mem_cons_of_mem _ hk⟩
        · rw [if_neg h02]
          exact (ih idx g hgr h2).2 hs

/-- Any group with at least two pins is emitted under some name. -/
lemma netsEmit_exists_name (pinPos labels : Coord → Option String)
    (gs : List (Coord × List Coord)) (idx : ℕ) (g : Coord × List Coord)
    (hg : g ∈ gs) (h2 : 2 ≤ (g.2.filterMap pinPos).length) :
    ∃ nm, (nm, g.2.filterMap pinPos) ∈ netsEmit pinPos labels gs idx := by
  by_cases hs : ((g.2.filterMap labels).getLast?).getD ("") ≠ ""
  · exact ⟨_, (netsEmit_emits pinPos labels gs idx g hg h2).1 hs⟩
  · push_neg at hs
    obtain ⟨k, hk⟩ := (netsEmit_emits pinPos labels gs idx g hg h2).2 hs
    exact ⟨_, hk⟩

end ParseSch

/-- C2: for every schematic (wire segments, pin and label dictionaries):
the unionfind groups are exactly the connected components of the wire graph
— members of a group are pairwise connected, connected nodes always land in
the same group, and the groups partition the node set — and parse_kicad
emits a net for a group if and only if the group holds at least 2 pins,
with the emitted pin list exactly the pins of the members of that group; a
component with 0 or 1 pin is never emitted. -/
theorem nets_iff_two_pins (segs : List (ParseSch.Coord × ParseSch.Coord))
    (pinPosL labelsL : List (ParseSch.Coord × String)) :
    (∀ g ∈ ParseSch.unionfind
        (ParseSch.schNodes segs (pinPosL.map Prod.fst) (labelsL.map Prod.fst)) segs,
      ∀ m1 ∈ g.2, ∀ m2 ∈ g.2, ParseSch.conn segs m1 m2) ∧
    (∀ g1 ∈ ParseSch.unionfind
        (ParseSch.schNodes segs (pinPosL.map Prod.fst) (labelsL.map Prod.fst)) segs,
      ∀ g2 ∈ ParseSch.unionfind
        (ParseSch.schNodes segs (pinPosL.map Prod.fst) (labelsL.map Prod.fst)) segs,
      ∀ m1 ∈ g1.2, ∀ m2 ∈ g2.2, ParseSch.conn segs m1 m2 → g1 = g2) ∧
    (ParseSch.membersAll (ParseSch.unionfind
        (ParseSch.schNodes segs (pinPosL.map Prod.fst) (labelsL.map Prod.fst)) segs)).Perm
      (ParseSch.schNodes segs (pinPosL.map Prod.fst) (labelsL.map Prod.fst)) ∧
    (∀ g ∈ ParseSch.unionfind
        (ParseSch.schNodes segs (pinPosL.map Prod.fst) (labelsL.map Prod.fst)) segs,
      (2 ≤ (g.2.filterMap (ParseSch.lookupL pinPosL)).length ↔
        ∃ nm, (nm, g.2.filterMap (ParseSch.lookupL pinPosL))
          ∈ ParseSch.netsOf segs pinPosL labelsL)) ∧
    (∀ nm ps, (nm, ps) ∈ ParseSch.netsOf segs pinPosL labelsL →
      ∃ g ∈ ParseSch.unionfind
        (ParseSch.schNodes segs (pinPosL.map Prod.fst) (labelsL.map Prod.fst)) segs,
        ps = g.2.filterMap (ParseSch.lookupL pinPosL) ∧ 2 ≤ ps.length) := by
  have hE : ∀ e ∈ segs,
      e.1 ∈ ParseSch.schNodes segs (pinPosL.map Prod.fst) (labelsL.map Prod.fst) ∧
      e.2 ∈ ParseSch.schNodes segs (pinPosL.map Prod.fst) (labelsL.map Prod.fst) := by
    intro e he
    constructor
    · unfold ParseSch.schNodes
      rw [List.mem_dedup]
      rw [List.mem_append, List.mem_append, List.mem_append]
      exact Or.inl (Or.inl (Or.inl (List.mem_map_of_mem Prod.fst he)))
    · unfold ParseSch.schNodes
      rw [List.mem_dedup]
      rw [List.mem_append, List.mem_append, List.mem_append]
      exact Or.inl (Or.inl (Or.inr (List.mem_map_of_mem Prod.snd he)))
  obtain ⟨hB, hC, hA⟩ := ParseSch.unionfind_spec
    (ParseSch.schNodes segs (pinPosL.map Prod.fst) (labelsL.map Prod.fst)) segs hE
  refine ⟨hB, hC, hA, ?_, ?_⟩
  · intro g hg
    constructor
    · intro h2
      exact ParseSch.netsEmit_exists_name (ParseSch.lookupL pinPosL) (ParseSch.lookupL labelsL)
        _ 1 g hg h2
    · intro ⟨nm, hmem⟩
      obtain ⟨g', _, _, hlen⟩ := ParseSch.netsEmit_src (ParseSch.lookupL pinPosL)
        (ParseSch.lookupL labelsL) _ 1 nm _ hmem
      exact hlen
  · intro nm ps hmem
    exact ParseSch.netsEmit_src (ParseSch.lookupL pinPosL) (ParseSch.lookupL labelsL) _ 1 nm ps hmem

/-- C7 (amended): a component with at least 2 pins and at least one
labelled member is emitted under the label of the LAST labelled member in
component traversal order, provided that label is non-empty — in
particular the name is an explicit label of the component, but it is the
last-encountered, not the first-encountered, one; when the component has no
label, or its last label is the empty string (falsy in Python), the net
instead gets an auto-generated name N$k from a monotonically increasing
counter. -/
theorem net_name_last_label (segs : List (ParseSch.Coord × ParseSch.Coord))
    (pinPosL labelsL : List (ParseSch.Coord × String))
    (g : ParseSch.Coord × List ParseSch.Coord)
    (hg : g ∈ ParseSch.unionfind
      (ParseSch.schNodes segs (pinPosL.map Prod.fst) (labelsL.map Prod.fst)) segs)
    (h2 : 2 ≤ (g.2.filterMap (ParseSch.lookupL pinPosL)).length) :
    (((g.2.filterMap (ParseSch.lookupL labelsL)).getLast?).getD ("") ≠ "" →
      (((g.2.filterMap (ParseSch.lookupL labelsL)).getLast?).getD (""),
        g.2.filterMap (ParseSch.lookupL pinPosL)) ∈ ParseSch.netsOf segs pinPosL labelsL) ∧
    (((g.2.filterMap (ParseSch.lookupL labelsL)).getLast?).getD ("") = "" →
      ∃ k : ℕ, ("N$" ++ toString k, g.2.filterMap (ParseSch.lookupL pinPosL))
        ∈ ParseSch.netsOf segs pinPosL labelsL) :=
  ParseSch.netsEmit_emits (ParseSch.lookupL pinPosL) (ParseSch.lookupL labelsL) _ 1 g hg h2

theorem net_name_last_label_witness :
    ((((0:ℤ), (0:ℤ)), [((0:ℤ), (0:ℤ)), ((1:ℤ), (0:ℤ))])
        ∈ ParseSch.unionfind
          (ParseSch.schNodes [(((0:ℤ), (0:ℤ)), ((1:ℤ), (0:ℤ)))]
            ([(((0:ℤ), (0:ℤ)), "R1:1"), (((1:ℤ), (0:ℤ)), "R2:1")].map Prod.fst)
            ([(((0:ℤ), (0:ℤ)), "A"), (((1:ℤ), (0:ℤ)), "B")].map Prod.fst))
          [(((0:ℤ), (0:ℤ)), ((1:ℤ), (0:ℤ)))] ∧
     2 ≤ (((((0:ℤ), (0:ℤ)), [((0:ℤ), (0:ℤ)), ((1:ℤ), (0:ℤ))]) :
        ParseSch.Coord × List ParseSch.Coord).2.filterMap
        (ParseSch.lookupL [(((0:ℤ), (0:ℤ)), "R1:1"), (((1:ℤ), (0:ℤ)), "R2:1")])).length) ∧
    (((((((0:ℤ), (0:ℤ)), [((0:ℤ), (0:ℤ)), ((1:ℤ), (0:ℤ))]) :
        ParseSch.Coord × List ParseSch.Coord).2.filterMap
        (ParseSch.lookupL [(((0:ℤ), (0:ℤ)), "A"), (((1:ℤ), (0:ℤ)), "B")])).getLast?).getD ("") ≠ "" →
      ((((((((0:ℤ), (0:ℤ)), [((0:ℤ), (0:ℤ)), ((1:ℤ), (0:ℤ))]) :
          ParseSch.Coord × List ParseSch.Coord).2.filterMap
          (ParseSch.lookupL [(((0:ℤ), (0:ℤ)), "A"), (((1:ℤ), (0:ℤ)), "B")])).getLast?).getD ("")),
        ((((0:ℤ), (0:ℤ)), [((0:ℤ), (0:ℤ)), ((1:ℤ), (0:ℤ))]) :
          ParseSch.Coord × List ParseSch.Coord).2.filterMap
          (ParseSch.lookupL [(((0:ℤ), (0:ℤ)), "R1:1"), (((1:ℤ), (0:ℤ)), "R2:1")]))
        ∈ ParseSch.netsOf [(((0:ℤ), (0:ℤ)), ((1:ℤ), (0:ℤ)))]
            [(((0:ℤ), (0:ℤ)), "R1:1"), (((1:ℤ), (0:ℤ)), "R2:1")]
            [(((0:ℤ), (0:ℤ)), "A"), (((1:ℤ), (0:ℤ)), "B")]) := by
  refine ⟨⟨?_, ?_⟩, ?_⟩
  · decide
  · decide
  · exact (net_name_last_label [(((0:ℤ), (0:ℤ)), ((1:ℤ), (0:ℤ)))]
      [(((0:ℤ), (0:ℤ)), "R1:1"), (((1:ℤ), (0:ℤ)), "R2:1")]
      [(((0:ℤ), (0:ℤ)), "A"), (((1:ℤ), (0:ℤ)), "B")]
      (((0:ℤ), (0:ℤ)), [((0:ℤ), (0:ℤ)), ((1:ℤ), (0:ℤ))])
      (by decide) (by decide)).1

/-- C7 counterexample: one wire joining two labelled pin nodes; traversal
order is (0,0) then (1,0), with labels A then B. The first-encountered
label of the component is A, but the emitted net is named B: parse_kicad
keeps the label of the LAST labelled member, refuting the
first-encountered resolution. -/
theorem net_name_first_label_counterexample :
    ParseSch.netsOf [(((0:ℤ), (0:ℤ)), ((1:ℤ), (0:ℤ)))]
        [(((0:ℤ), (0:ℤ)), "R1:1"), (((1:ℤ), (0:ℤ)), "R2:1")]
        [(((0:ℤ), (0:ℤ)), "A"), (((1:ℤ), (0:ℤ)), "B")]
      = [("B", ["R1:1", "R2:1"])] ∧
    ParseSch.unionfind
        (ParseSch.schNodes [(((0:ℤ), (0:ℤ)), ((1:ℤ), (0:ℤ)))]
          ([(((0:ℤ), (0:ℤ)), "R1:1"), (((1:ℤ), (0:ℤ)), "R2:1")].map Prod.fst)
          ([(((0:ℤ), (0:ℤ)), "A"), (((1:ℤ), (0:ℤ)), "B")].map Prod.fst))
        [(((0:ℤ), (0:ℤ)), ((1:ℤ), (0:ℤ)))]
      = [(((0:ℤ), (0:ℤ)), [((0:ℤ), (0:ℤ)), ((1:ℤ), (0:ℤ))])] ∧
    ([((0:ℤ), (0:ℤ)), ((1:ℤ), (0:ℤ))].filterMap
        (ParseSch.lookupL [(((0:ℤ), (0:ℤ)), "A"), (((1:ℤ), (0:ℤ)), "B")])).head? = some ("A") ∧
    ("B" : String) ≠ "A" := by
  refine ⟨?_, ?_, ?_, ?_⟩
  · decide
  · decide
  · decide
  · decide

section RoundTrip

/-- Core estimate: before the 4-decimal output rounding, the round trip
lands within one grid cell of the input on each axis. -/
lemma roundtrip_core (mp p g : ℕ) (minv maxv v : ℚ)
    (hlt : minv < maxv) (h1 : minv ≤ v) (h2 : v ≤ maxv) :
    |PcbPatcher.axisFromGrid mp p g minv maxv (SnakeGame.axisToGrid mp p g minv maxv v) - v|
      ≤ (maxv - minv) / ((max 1 (g - 1) : ℕ) : ℚ) + 1/20000 := by
  set D := maxv - minv with hD
  have hD0 : 0 < D := by simp [hD]; linarith
  set N : ℕ := g - 1 with hN
  set t : ℚ := (v - minv) / D with ht
  have ht0 : 0 ≤ t := by
    apply div_nonneg (by linarith) (le_of_lt hD0)
  have ht1 : t ≤ 1 := by
    rw [ht, div_le_one hD0]
    linarith
  set u : ℚ := t * (N : ℚ) with hu
  have hu0 : 0 ≤ u := mul_nonneg ht0 (by positivity)
  have huN : u ≤ (N : ℚ) := by
    calc u = t * (N : ℚ) := hu
      _ ≤ 1 * (N : ℚ) := by apply mul_le_mul_of_nonneg_right ht1 (by positivity)
      _ = (N : ℚ) := by ring
  set r : ℤ := pyRound u with hr
  have hr0 : 0 ≤ r := pyRound_nonneg hu0
  have hrN : r ≤ (N : ℤ) := pyRound_le_of_le (by exact_mod_cast huN)
  -- the forward map produces p + mp/2 + r
  have hfwd : SnakeGame.axisToGrid mp p g minv maxv v
      = (p : ℤ) + ((mp / 2 : ℕ) : ℤ) + r := by
    unfold SnakeGame.axisToGrid
    rw [hr, hu, ht, hD, hN]
  -- the inverse fraction is r / max 1 N, and clamping is a no-op
  have hfrac : ∀ M : ℚ, ((((p : ℤ) + ((mp / 2 : ℕ) : ℤ) + r : ℤ) : ℚ) - (p : ℚ) - ((mp / 2 : ℕ) : ℚ))
      / M = (r : ℚ) / M := by
    intro M
    congr 1
    generalize (mp / 2 : ℕ) = m2
    push_cast
    ring
  have hfrac := hfrac ((max 1 N : ℕ) : ℚ)
  have hM1 : (1 : ℚ) ≤ ((max 1 N : ℕ) : ℚ) := by
    have : 1 ≤ max 1 N := le_max_left 1 N
    exact_mod_cast this
  have hM0 : (0 : ℚ) < ((max 1 N : ℕ) : ℚ) := by linarith
  have hclamp : max 0 (min 1 ((r : ℚ) / ((max 1 N : ℕ) : ℚ))) = (r : ℚ) / ((max 1 N : ℕ) : ℚ) := by
    have hge : (0:ℚ) ≤ (r : ℚ) / ((max 1 N : ℕ) : ℚ) := by
      apply div_nonneg (by exact_mod_cast hr0) (le_of_lt hM0)
    have hle : (r : ℚ) / ((max 1 N : ℕ) : ℚ) ≤ 1 := by
      rw [div_le_one hM0]
      have : (r : ℚ) ≤ (N : ℚ) := by exact_mod_cast hrN
      have hNM : ((N : ℕ) : ℚ) ≤ ((max 1 N : ℕ) : ℚ) := by
        exact_mod_cast Nat.le_max_right 1 N
      linarith
    rw [min_eq_right hle, max_eq_right hge]
  -- main distance estimate before the final 4-decimal rounding
  have hmain : |minv + (r : ℚ) / ((max 1 N : ℕ) : ℚ) * D - v|
      ≤ D / ((max 1 N : ℕ) : ℚ) := by
    have hv : v = minv + t * D := by
      rw [ht]
      field_simp
    rcases Nat.eq_zero_or_pos N with h0 | hpos
    · -- a single grid column: r = 0 and the error is at most D
      have hu0' : u = 0 := by rw [hu, h0]; push_cast; ring
      have hr0' : r = 0 := by
        rw [hr, hu0']
        exact @pyRound_eq_low 0 0 (by norm_num) (by norm_num)
      rw [hr0', h0]
      simp only [Int.cast_zero, zero_div, zero_mul, add_zero]
      have : |minv - v| = t * D := by
        rw [hv]
        rw [abs_sub_comm]
        rw [abs_of_nonneg (by nlinarith)]
        ring
      rw [this]
      have : ((max 1 0 : ℕ) : ℚ) = 1 := by norm_num
      rw [this]
      rw [div_one]
      nlinarith
    · -- at least two grid columns: |r - u| ≤ 1/2 gives half a cell
      have hMN : (max 1 N : ℕ) = N := Nat.max_eq_right hpos
      rw [hMN]
      have hN0 : (0:ℚ) < (N : ℚ) := by exact_mod_cast hpos
      have hdiff : minv + (r : ℚ) / (N : ℚ) * D - v = ((r : ℚ) - u) * D / (N : ℚ) := by
        rw [hv, hu]
        field_simp
        ring
      rw [hdiff]
      rw [abs_div, abs_of_pos hN0, abs_mul, abs_of_pos hD0]
      rw [div_le_div_iff₀ (by positivity) hN0]
      have habs : |(r : ℚ) - u| ≤ 1/2 := abs_pyRound_sub_le u
      calc |(r : ℚ) - u| * D * (N : ℚ) ≤ (1/2) * D * (N : ℚ) := by
            apply mul_le_mul_of_nonneg_right _ (le_of_lt hN0)
            apply mul_le_mul_of_nonneg_right habs (le_of_lt hD0)
        _ ≤ D * (N : ℚ) := by nlinarith
  -- assemble with the 4-decimal rounding error
  unfold PcbPatcher.axisFromGrid
  rw [hfwd, hfrac, hclamp]
  have hr4 := abs_round4_sub_le (minv + (r : ℚ) / ((max 1 N : ℕ) : ℚ) * D)
  calc |round4 (minv + (r : ℚ) / ((max 1 N : ℕ) : ℚ) * D) - v|
      ≤ |round4 (minv + (r : ℚ) / ((max 1 N : ℕ) : ℚ) * D)
          - (minv + (r : ℚ) / ((max 1 N : ℕ) : ℚ) * D)|
        + |minv + (r : ℚ) / ((max 1 N : ℕ) : ℚ) * D - v| := by
        apply abs_sub_le
    _ ≤ 1/20000 + D / ((max 1 N : ℕ) : ℚ) := by
        apply add_le_add hr4 hmain
    _ = D / ((max 1 N : ℕ) : ℚ) + 1/20000 := by ring

/-- Evaluation helper: compute axisToGrid from a precomputed rounding. -/
lemma axisToGrid_eval {mp p g : ℕ} {minv maxv v q : ℚ} {n m : ℤ}
    (ha : (v - minv) / (maxv - minv) * (((g - 1 : ℕ)) : ℚ) = q)
    (hpy : pyRound q = n)
    (hm : (p : ℤ) + ((mp / 2 : ℕ) : ℤ) + n = m) :
    SnakeGame.axisToGrid mp p g minv maxv v = m := by
  unfold SnakeGame.axisToGrid
  rw [ha, hpy, hm]

/-- Evaluation helper: compute axisFromGrid when the fraction needs no clamping. -/
lemma axisFromGrid_eval {mp p g : ℕ} {minv maxv : ℚ} {gv : ℤ} {fr res : ℚ}
    (hf : ((gv : ℚ) - (p : ℚ) - ((mp / 2 : ℕ) : ℚ)) / ((max 1 (g - 1) : ℕ) : ℚ) = fr)
    (h0 : 0 ≤ fr) (h1 : fr ≤ 1)
    (hres : round4 (minv + fr * (maxv - minv)) = res) :
    PcbPatcher.axisFromGrid mp p g minv maxv gv = res := by
  unfold PcbPatcher.axisFromGrid
  rw [hf, min_eq_right h1, max_eq_right h0, hres]

/-- Evaluation helper for round4. -/
lemma round4_eval {q q' : ℚ} {n : ℤ} {res : ℚ}
    (hq : q * 10000 = q') (h : pyRound q' = n) (hr : (n : ℚ) / 10000 = res) :
    round4 q = res := by
  unfold round4
  rw [hq, h, hr]

end RoundTrip

/-- C8 (amended): for every point inside the bounding box, a non-degenerate
bounding box and identical grid dimension and padding values on both sides,
the round trip grid_to_pcb after map_to_grid returns, on each axis, a value
within one grid cell of the input plus the half-quantum 1/20000 of the final
4-decimal output rounding. -/
theorem roundtrip_one_cell_amended (mp p g : ℕ) (minv maxv v : ℚ)
    (hlt : minv < maxv) (h1 : minv ≤ v) (h2 : v ≤ maxv) :
    |PcbPatcher.axisFromGrid mp p g minv maxv (SnakeGame.axisToGrid mp p g minv maxv v) - v|
      ≤ (maxv - minv) / ((max 1 (g - 1) : ℕ) : ℚ) + 1/20000 :=
  roundtrip_core mp p g minv maxv v hlt h1 h2

theorem roundtrip_one_cell_amended_witness :
    ((0:ℚ) < 10 ∧ (0:ℚ) ≤ 5 ∧ (5:ℚ) ≤ 10) ∧
    |PcbPatcher.axisFromGrid 4 2 72 0 10 (SnakeGame.axisToGrid 4 2 72 0 10 5) - 5|
      ≤ (10 - 0) / ((max 1 (72 - 1 : ℕ) : ℕ) : ℚ) + 1/20000 :=
  ⟨⟨by norm_num, by norm_num, by norm_num⟩,
   roundtrip_one_cell_amended 4 2 72 0 10 5 (by norm_num) (by norm_num) (by norm_num)⟩

/-- C8 counterexample: with grid width 101 interior columns and a 0.001-wide
bounding box (well above the 1e-6 degeneracy threshold), the point 0.000044
maps to grid column 8 and comes back as 0.0000, an error of 0.000044, which
exceeds the one-cell size 0.00001; the final 4-decimal rounding of
grid_to_pcb breaks the one-cell round-trip bound claimed for all boxes. -/
theorem roundtrip_one_cell_counterexample :
    ((0:ℚ) < 1/1000 ∧ (0:ℚ) ≤ 11/250000 ∧ (11/250000 : ℚ) ≤ 1/1000) ∧
    ¬ (|PcbPatcher.axisFromGrid 4 2 101 0 (1/1000)
          (SnakeGame.axisToGrid 4 2 101 0 (1/1000) (11/250000)) - 11/250000|
        ≤ (1/1000 - 0) / ((max 1 (101 - 1 : ℕ) : ℕ) : ℚ)) := by
  have hfwd : SnakeGame.axisToGrid 4 2 101 0 (1/1000) (11/250000) = 8 :=
    @axisToGrid_eval 4 2 101 0 (1/1000) (11/250000) (22/5) 4 8
      (by norm_num) (@pyRound_eq_low (22/5) 4 (by norm_num) (by norm_num)) (by decide)
  have hinv : PcbPatcher.axisFromGrid 4 2 101 0 (1/1000) 8 = 0 :=
    @axisFromGrid_eval 4 2 101 0 (1/1000) 8 (1/25) 0
      (by norm_num) (by norm_num) (by norm_num)
      (@round4_eval (0 + 1/25 * (1/1000 - 0)) (2/5) 0 0
        (by norm_num) (@pyRound_eq_low (2/5) 0 (by norm_num) (by norm_num)) (by norm_num))
  refine ⟨⟨by norm_num, by norm_num, by norm_num⟩, ?_⟩
  rw [hfwd, hinv]
  intro habs
  rw [show |(0:ℚ) - 11/250000| = 11/250000 by rw [abs_sub_comm]; rw [abs_of_nonneg] <;> norm_num] at habs
  rw [show ((max 1 (101 - 1 : ℕ) : ℕ) : ℚ) = 100 by norm_num] at habs
  norm_num at habs

/-- C1: the grid parameters differ between the two modules — snake_game uses
an 80 by 40 grid while pcb_patcher uses 60 by 24 (MAP_PADDING and the border
padding agree) — so grid_to_pcb is not the inverse of the mapping that placed
the pads: a pad at board coordinate 5 of a 0..10 axis goes to snake grid
column 40 and comes back at 7.0588, off by far more than one cell. -/
theorem grid_params_mismatch :
    (SnakeGame.GRID_W ≠ PcbPatcher.GRID_W ∧ SnakeGame.GRID_H ≠ PcbPatcher.GRID_H ∧
     SnakeGame.MAP_PADDING = PcbPatcher.MAP_PADDING) ∧
    SnakeGame.axisToGrid SnakeGame.MAP_PADDING 2
      (max 1 (SnakeGame.GRID_W - 2*2 - SnakeGame.MAP_PADDING)) 0 10 5 = 40 ∧
    PcbPatcher.axisFromGrid PcbPatcher.MAP_PADDING PcbPatcher.PADDING
      (max 1 (PcbPatcher.GRID_W - PcbPatcher.PADDING*2 - PcbPatcher.MAP_PADDING)) 0 10 40
      = 70588/10000 ∧
    ¬ (|(70588/10000 : ℚ) - 5|
        ≤ (10 - 0) / ((max 1 ((max 1 (SnakeGame.GRID_W - 2*2 - SnakeGame.MAP_PADDING)) - 1) : ℕ) : ℚ)) := by
  refine ⟨⟨by decide, by decide, by decide⟩, ?_, ?_, ?_⟩
  · exact @axisToGrid_eval SnakeGame.MAP_PADDING 2
      (max 1 (SnakeGame.GRID_W - 2*2 - SnakeGame.MAP_PADDING)) 0 10 5 (71/2) 36 40
      (by rw [show SnakeGame.GRID_W = 80 from rfl, show SnakeGame.MAP_PADDING = 4 from rfl]
          norm_num)
      (@pyRound_eq_half_odd (71/2) 35 (by norm_num) (by decide))
      (by decide)
  · exact @axisFromGrid_eval PcbPatcher.MAP_PADDING PcbPatcher.PADDING
      (max 1 (PcbPatcher.GRID_W - PcbPatcher.PADDING*2 - PcbPatcher.MAP_PADDING)) 0 10 40
      (12/17) (70588/10000)
      (by rw [show PcbPatcher.GRID_W = 60 from rfl, show PcbPatcher.MAP_PADDING = 4 from rfl,
              show PcbPatcher.PADDING = 2 from rfl]
          norm_num)
      (by norm_num) (by norm_num)
      (@round4_eval (0 + 12/17 * (10 - 0)) (1200000/17) 70588 (70588/10000)
        (by norm_num) (@pyRound_eq_low (1200000/17) 70588 (by norm_num) (by norm_num))
        (by norm_num))
  · intro habs
    rw [show |(70588:ℚ)/10000 - 5| = 20588/10000 by rw [abs_of_nonneg] <;> norm_num] at habs
    rw [show ((max 1 ((max 1 (SnakeGame.GRID_W - 2*2 - SnakeGame.MAP_PADDING)) - 1) : ℕ) : ℚ)
        = 71 by rw [show SnakeGame.GRID_W = 80 from rfl, show SnakeGame.MAP_PADDING = 4 from rfl]; norm_num] at habs
    norm_num at habs

/-- C5: append_tracks does NOT keep an existing backup: the shutil.copy at
the top of the call runs unconditionally, so after every call — on every
branch of the function — the .bak file holds the current board text,
clobbering whatever backup existed before, contrary to the comment in the
source (keep existing .bak if present). -/
theorem backup_always_overwritten (pads : List (ℚ × ℚ)) (netIdx : ℕ)
    (points : List (ℤ × ℤ)) (w : ℚ) (layer : String) (parseOk : String → Bool)
    (orig : String) (bak0 : Option String) :
    (PcbPatcher.appendTracks pads netIdx points w layer parseOk orig bak0).bak = some orig := by
  unfold PcbPatcher.appendTracks
  rcases hcb : PcbPatcher.computeBounds pads with _ | b
  · rfl
  · dsimp only
    split_ifs <;> rfl

/-- C6: when the re-parse of the appended board text fails, append_tracks
restores the board file byte-identically from the backup taken at the start
of the call (equal to the pre-append content) and the parse error escapes to
the caller. -/
theorem parse_failure_restores (pads : List (ℚ × ℚ)) (netIdx : ℕ)
    (points : List (ℤ × ℤ)) (w : ℚ) (layer : String) (parseOk : String → Bool)
    (orig : String) (bak0 : Option String)
    (hfail : ∀ t, parseOk t = false)
    (hpts : 2 ≤ points.length)
    (hbounds : PcbPatcher.computeBounds pads ≠ none)
    (hfmt : PcbPatcher.endsParen (PcbPatcher.pyRstrip orig) = true) :
    (PcbPatcher.appendTracks pads netIdx points w layer parseOk orig bak0).file = orig ∧
    (PcbPatcher.appendTracks pads netIdx points w layer parseOk orig bak0).bak = some orig ∧
    (PcbPatcher.appendTracks pads netIdx points w layer parseOk orig bak0).result
      = PcbPatcher.PRes.err PcbPatcher.PatchErr.parseFail := by
  obtain ⟨b, hb⟩ := Option.ne_none_iff_exists'.mp hbounds
  unfold PcbPatcher.appendTracks
  rw [hb]
  dsimp only
  have hlen : ((points.zip points.tail).map (fun ab =>
      let a := PcbPatcher.grid_to_pcb ab.1.1 ab.1.2 b
      let bb := PcbPatcher.grid_to_pcb ab.2.1 ab.2.2 b
      PcbPatcher.segLineTxt a.1 a.2 bb.1 bb.2 w layer netIdx)).length
      = min points.length (points.length - 1) := by
    rw [List.length_map, List.length_zip, List.length_tail]
  have hmin : min points.length (points.length - 1) = points.length - 1 := by omega
  have hne : ((points.zip points.tail).map (fun ab =>
      let a := PcbPatcher.grid_to_pcb ab.1.1 ab.1.2 b
      let bb := PcbPatcher.grid_to_pcb ab.2.1 ab.2.2 b
      PcbPatcher.segLineTxt a.1 a.2 bb.1 bb.2 w layer netIdx)) ≠ [] := by
    intro hcon
    rw [hcon] at hlen
    simp at hlen
    omega
  rw [if_neg hne]
  rw [if_neg (show ¬ (PcbPatcher.endsParen (PcbPatcher.pyRstrip orig) = false) by
    rw [hfmt]; exact fun hcon => Bool.noConfusion hcon)]
  rw [hfail]
  rw [if_neg (show ¬ (false = true) by exact fun hcon => Bool.noConfusion hcon)]
  exact ⟨rfl, rfl, rfl⟩

/-- Membership is preserved by the trail insertion. -/
lemma mem_sinsert_of_mem {c n : SnakeGame.Cell} {l : List SnakeGame.Cell} (h : c ∈ l) :
    c ∈ SnakeGame.sinsert n l := by
  unfold SnakeGame.sinsert
  by_cases hn : n ∈ l
  · rw [if_pos hn]; exact h
  · rw [if_neg hn]; exact List.mem_cons_of_mem _ h

/-- Every cell of a committed trail ends up among the occupied cells. -/
lemma mem_commit {c : SnakeGame.Cell} {occ l : List SnakeGame.Cell} (h : c ∈ l) :
    c ∈ occ ++ l.filter (fun c => decide (c ∉ occ)) := by
  by_cases hc : c ∈ occ
  · exact List.mem_append_left _ hc
  · apply List.mem_append_right
    apply List.mem_filter.mpr
    exact ⟨h, by simpa using hc⟩

/-- Trail monotonicity: a terminating run that starts from a state whose
trail contains the seed cells ends with the seed cells still in the trail
(restarts reset the trail to exactly the seed). -/
lemma runLoop_done_trail (env : SnakeGame.NetEnv) : ∀ (fuel : ℕ) (ks : List SnakeGame.Key)
    (s s' : SnakeGame.SnakeSt) (ks' : List SnakeGame.Key),
    (∀ c ∈ (SnakeGame.init_snake env.startX env.startY).trail, c ∈ s.trail) →
    SnakeGame.runLoop env fuel ks s = SnakeGame.LoopRes.done s' ks' →
    ∀ c ∈ (SnakeGame.init_snake env.startX env.startY).trail, c ∈ s'.trail := by
  intro fuel
  induction fuel with
  | zero =>
    intro ks s s' ks' hs h
    exact absurd h (by simp [SnakeGame.runLoop])
  | succ f ih =>
    intro ks s s' ks' hs h
    simp only [SnakeGame.runLoop] at h
    by_cases h1 : (SnakeGame.popKey ks).1 = SnakeGame.Key.quit
    · rw [if_pos h1] at h
      exact absurd h (by simp)
    · rw [if_neg h1] at h
      by_cases h2 : SnakeGame.collides env
          (SnakeGame.nextCell (s.snake.headD (0, 0)) (SnakeGame.nextDir (SnakeGame.popKey ks).1 s.dir)) = true
      · rw [if_pos h2] at h
        by_cases h3 : (SnakeGame.popKey (SnakeGame.popKey ks).2).1 = SnakeGame.Key.quit
        · rw [if_pos h3] at h
          exact absurd h (by simp)
        · rw [if_neg h3] at h
          exact ih _ _ _ _ (fun c hc => hc) h
      · rw [if_neg h2] at h
        by_cases h4 : s.appleIdx < env.coords.length
        · rw [if_pos h4] at h
          by_cases h5 : SnakeGame.nextCell (s.snake.headD (0, 0))
              (SnakeGame.nextDir (SnakeGame.popKey ks).1 s.dir)
              = (env.coords.getD s.appleIdx ("", (0, 0))).2
          · rw [if_pos h5] at h
            exact ih _ _ _ _ (fun c hc => mem_sinsert_of_mem (hs c hc)) h
          · rw [if_neg h5] at h
            exact ih _ _ _ _ (fun c hc => mem_sinsert_of_mem (hs c hc)) h
        · rw [if_neg h4] at h
          have hinj := h
          rw [SnakeGame.LoopRes.done.injEq] at hinj
          intro c hc
          rw [← hinj.1]
          exact mem_sinsert_of_mem (hs c hc)

/-- C3 (amended): once every pin of the net has been visited
(apple_idx has moved past the final pin), the machine does not stop at that
moment; on the following iteration it performs the usual collision checks
once more and, when the next cell is free, appends that one further cell to
the snake and the trail, and only then exits the loop. -/
theorem complete_exits_one_cell_later (env : SnakeGame.NetEnv) (fuel : ℕ)
    (k : SnakeGame.Key) (ks : List SnakeGame.Key) (s : SnakeGame.SnakeSt)
    (hk : k ≠ SnakeGame.Key.quit)
    (hdone : env.coords.length ≤ s.appleIdx)
    (hfree : SnakeGame.collides env
      (SnakeGame.nextCell (s.snake.headD (0, 0)) (SnakeGame.nextDir k s.dir)) = false) :
    SnakeGame.runLoop env (fuel + 1) (k :: ks) s
      = SnakeGame.LoopRes.done
          ⟨SnakeGame.nextCell (s.snake.headD (0, 0)) (SnakeGame.nextDir k s.dir) :: s.snake,
           SnakeGame.nextDir k s.dir,
           SnakeGame.sinsert (SnakeGame.nextCell (s.snake.headD (0, 0)) (SnakeGame.nextDir k s.dir)) s.trail,
           s.appleIdx, s.score⟩ ks := by
  simp only [SnakeGame.runLoop, SnakeGame.popKey]
  rw [if_neg hk]
  rw [if_neg (show ¬ (SnakeGame.collides env
    (SnakeGame.nextCell (s.snake.headD (0, 0)) (SnakeGame.nextDir k s.dir)) = true) by
      rw [hfree]; exact fun hcon => Bool.noConfusion hcon)]
  rw [if_neg (show ¬ (s.appleIdx < env.coords.length) by omega)]

theorem complete_exits_one_cell_later_witness :
    ((SnakeGame.Key.idle ≠ SnakeGame.Key.quit) ∧
     (SnakeGame.NetEnv.mk [] (fun _ => none) [("a", ((0:ℤ), (0:ℤ)))] 0 0).coords.length ≤ 1 ∧
     SnakeGame.collides (SnakeGame.NetEnv.mk [] (fun _ => none) [("a", ((0:ℤ), (0:ℤ)))] 0 0)
       (SnakeGame.nextCell ((SnakeGame.SnakeSt.mk [((5:ℤ), (5:ℤ))] (1, 0) [((5:ℤ), (5:ℤ))] 1 1).snake.headD (0, 0))
         (SnakeGame.nextDir SnakeGame.Key.idle (1, 0))) = false) ∧
    SnakeGame.runLoop (SnakeGame.NetEnv.mk [] (fun _ => none) [("a", ((0:ℤ), (0:ℤ)))] 0 0) 1
        [SnakeGame.Key.idle] (SnakeGame.SnakeSt.mk [((5:ℤ), (5:ℤ))] (1, 0) [((5:ℤ), (5:ℤ))] 1 1)
      = SnakeGame.LoopRes.done
          ⟨SnakeGame.nextCell (((SnakeGame.SnakeSt.mk [((5:ℤ), (5:ℤ))] (1, 0) [((5:ℤ), (5:ℤ))] 1 1).snake).headD (0, 0))
              (SnakeGame.nextDir SnakeGame.Key.idle (1, 0)) :: [((5:ℤ), (5:ℤ))],
           SnakeGame.nextDir SnakeGame.Key.idle (1, 0),
           SnakeGame.sinsert (SnakeGame.nextCell (((SnakeGame.SnakeSt.mk [((5:ℤ), (5:ℤ))] (1, 0) [((5:ℤ), (5:ℤ))] 1 1).snake).headD (0, 0))
              (SnakeGame.nextDir SnakeGame.Key.idle (1, 0))) [((5:ℤ), (5:ℤ))],
           1, 1⟩ [] :=
  ⟨⟨by decide, by decide, by decide⟩,
   complete_exits_one_cell_later (SnakeGame.NetEnv.mk [] (fun _ => none) [("a", ((0:ℤ), (0:ℤ)))] 0 0)
     0 SnakeGame.Key.idle [] (SnakeGame.SnakeSt.mk [((5:ℤ), (5:ℤ))] (1, 0) [((5:ℤ), (5:ℤ))] 1 1)
     (by decide) (by decide) (by decide)⟩

/-- C3 counterexample: a two-pin net routed left to right. The run does not
end at the iteration in which the final pin (11,10) is accepted: one more
iteration runs, a further collision check is made and the cell (12,10) —
not a pad of the net — is appended to the trail before the loop exits. -/
theorem complete_extra_cell_counterexample :
    SnakeGame.runLoop
        ⟨[], (fun c => if c = ((10:ℤ), (10:ℤ)) then some ("R1:1")
              else if c = ((11:ℤ), (10:ℤ)) then some ("R2:1") else none),
         [("R1:1", ((10:ℤ), (10:ℤ))), ("R2:1", ((11:ℤ), (10:ℤ)))], 10, 10⟩
        5 [] (SnakeGame.init_snake 10 10)
      = SnakeGame.LoopRes.done
          ⟨[(12, 10), (11, 10), (10, 10), (9, 10), (8, 10)], (1, 0),
           [(12, 10), (11, 10), (10, 10), (9, 10), (8, 10)], 2, 2⟩ [] ∧
    ((12:ℤ), (10:ℤ)) ∉ [((10:ℤ), (10:ℤ)), ((11:ℤ), (10:ℤ))] := by
  constructor
  · decide
  · decide

/-- C4: a collision (occupied cell or foreign pad, merged in collides)
discards the attempt entirely: with a non-quit acknowledgement key the loop
continues exactly as a fresh run from init_snake at the same start pad,
independent of the aborted state, and the fresh trail is precisely the
three seed cells. -/
theorem collision_restart_discards (env : SnakeGame.NetEnv) (fuel : ℕ)
    (k k2 : SnakeGame.Key) (ks : List SnakeGame.Key) (s : SnakeGame.SnakeSt)
    (hk : k ≠ SnakeGame.Key.quit) (hk2 : k2 ≠ SnakeGame.Key.quit)
    (hcol : SnakeGame.collides env
      (SnakeGame.nextCell (s.snake.headD (0, 0)) (SnakeGame.nextDir k s.dir)) = true) :
    SnakeGame.runLoop env (fuel + 1) (k :: k2 :: ks) s
      = SnakeGame.runLoop env fuel ks (SnakeGame.init_snake env.startX env.startY) ∧
    (SnakeGame.init_snake env.startX env.startY).trail
      = [(env.startX % (SnakeGame.GRID_W : ℤ), env.startY % (SnakeGame.GRID_H : ℤ)),
         ((env.startX - 1) % (SnakeGame.GRID_W : ℤ), env.startY % (SnakeGame.GRID_H : ℤ)),
         ((env.startX - 2) % (SnakeGame.GRID_W : ℤ), env.startY % (SnakeGame.GRID_H : ℤ))] := by
  constructor
  · simp only [SnakeGame.runLoop, SnakeGame.popKey]
    rw [if_neg hk, if_pos hcol, if_neg hk2]
  · rfl

theorem collision_restart_discards_witness :
    ((SnakeGame.Key.idle ≠ SnakeGame.Key.quit) ∧
     SnakeGame.collides
       (SnakeGame.NetEnv.mk [((11:ℤ), (10:ℤ))] (fun _ => none) [("a", ((10:ℤ), (10:ℤ)))] 10 10)
       (SnakeGame.nextCell (((SnakeGame.init_snake 10 10).snake).headD (0, 0))
         (SnakeGame.nextDir SnakeGame.Key.idle (SnakeGame.init_snake 10 10).dir)) = true) ∧
    SnakeGame.runLoop
        (SnakeGame.NetEnv.mk [((11:ℤ), (10:ℤ))] (fun _ => none) [("a", ((10:ℤ), (10:ℤ)))] 10 10)
        1 [SnakeGame.Key.idle, SnakeGame.Key.idle] (SnakeGame.init_snake 10 10)
      = SnakeGame.runLoop
          (SnakeGame.NetEnv.mk [((11:ℤ), (10:ℤ))] (fun _ => none) [("a", ((10:ℤ), (10:ℤ)))] 10 10)
          0 [] (SnakeGame.init_snake 10 10) ∧
    (SnakeGame.init_snake (10:ℤ) (10:ℤ)).trail
      = [((10:ℤ) % (SnakeGame.GRID_W : ℤ), (10:ℤ) % (SnakeGame.GRID_H : ℤ)),
         (((10:ℤ) - 1) % (SnakeGame.GRID_W : ℤ), (10:ℤ) % (SnakeGame.GRID_H : ℤ)),
         (((10:ℤ) - 2) % (SnakeGame.GRID_W : ℤ), (10:ℤ) % (SnakeGame.GRID_H : ℤ))] :=
  ⟨⟨by decide, by decide⟩,
   (collision_restart_discards
     (SnakeGame.NetEnv.mk [((11:ℤ), (10:ℤ))] (fun _ => none) [("a", ((10:ℤ), (10:ℤ)))] 10 10)
     0 SnakeGame.Key.idle SnakeGame.Key.idle [] (SnakeGame.init_snake 10 10)
     (by decide) (by decide) (by decide)).1,
   (collision_restart_discards
     (SnakeGame.NetEnv.mk [((11:ℤ), (10:ℤ))] (fun _ => none) [("a", ((10:ℤ), (10:ℤ)))] 10 10)
     0 SnakeGame.Key.idle SnakeGame.Key.idle [] (SnakeGame.init_snake 10 10)
     (by decide) (by decide) (by decide)).2⟩

/-- C10: init_snake seeds a trail of exactly 3 cells — the start pad plus
the two cells toroidally to its left on the same row, head at the start
pad — and of these only the start pad cell is ever tested against the
occupied set: a single net pauses as invalid exactly when its start pad is
occupied (never because of the trailing seed cells), and when the run
finishes, every seed cell has been committed to the occupied set. -/
theorem init_snake_seed_and_checks (sx sy : ℤ)
    (hx0 : 0 ≤ sx) (hx : sx < (SnakeGame.GRID_W : ℤ))
    (hy0 : 0 ≤ sy) (hy : sy < (SnakeGame.GRID_H : ℤ)) :
    (SnakeGame.init_snake sx sy).snake
      = [(sx, sy), ((sx - 1) % (SnakeGame.GRID_W : ℤ), sy), ((sx - 2) % (SnakeGame.GRID_W : ℤ), sy)] ∧
    (SnakeGame.init_snake sx sy).trail = (SnakeGame.init_snake sx sy).snake ∧
    ((SnakeGame.init_snake sx sy).snake).headD (0, 0) = (sx, sy) ∧
    (∀ (pm : String → Option SnakeGame.Cell) (ctp : SnakeGame.Cell → Option String)
       (nio : String → Option ℕ) (fuel : ℕ) (nm : String) (pins : List String)
       (ks : List SnakeGame.Key) (occ : List SnakeGame.Cell)
       (pers : List (ℕ × List SnakeGame.Cell)) (p0 : String) (ctail : List (String × SnakeGame.Cell)),
      pins.filterMap (fun p => (pm p).map (fun c => (p, c))) = (p0, (sx, sy)) :: ctail →
      ((SnakeGame.routeNets pm ctp nio fuel [(nm, pins)] ks occ pers).ending
          = SnakeGame.RunEnd.pausedInvalid ↔ (sx, sy) ∈ occ)) ∧
    (∀ (pm : String → Option SnakeGame.Cell) (ctp : SnakeGame.Cell → Option String)
       (nio : String → Option ℕ) (fuel : ℕ) (nm : String) (pins : List String)
       (ks : List SnakeGame.Key) (occ : List SnakeGame.Cell)
       (pers : List (ℕ × List SnakeGame.Cell)) (p0 : String) (ctail : List (String × SnakeGame.Cell)),
      pins.filterMap (fun p => (pm p).map (fun c => (p, c))) = (p0, (sx, sy)) :: ctail →
      (SnakeGame.routeNets pm ctp nio fuel [(nm, pins)] ks occ pers).ending
          = SnakeGame.RunEnd.finished →
      ∀ c ∈ (SnakeGame.init_snake sx sy).trail,
        c ∈ (SnakeGame.routeNets pm ctp nio fuel [(nm, pins)] ks occ pers).occupied) := by
  have hmodx : sx % (SnakeGame.GRID_W : ℤ) = sx := Int.emod_eq_of_lt hx0 hx
  have hmody : sy % (SnakeGame.GRID_H : ℤ) = sy := Int.emod_eq_of_lt hy0 hy
  refine ⟨?_, rfl, ?_, ?_, ?_⟩
  · simp [SnakeGame.init_snake, hmodx, hmody]
  · simp [SnakeGame.init_snake, hmodx, hmody]
  · intro pm ctp nio fuel nm pins ks occ pers p0 ctail hcoords
    simp only [SnakeGame.routeNets, hcoords]
    by_cases hmem : (sx, sy) ∈ occ
    · rw [if_pos hmem]
      simp [hmem]
    · rw [if_neg hmem]
      cases hrl : SnakeGame.runLoop ⟨occ, ctp, (p0, (sx, sy)) :: ctail, sx, sy⟩ fuel ks
          (SnakeGame.init_snake sx sy) with
      | quitGame => simp [hmem]
      | fuelOut s ks2 => simp [hmem]
      | done s ks2 => simp [SnakeGame.routeNets, hmem]
  · intro pm ctp nio fuel nm pins ks occ pers p0 ctail hcoords hfin c hc
    simp only [SnakeGame.routeNets, hcoords] at hfin ⊢
    by_cases hmem : (sx, sy) ∈ occ
    · rw [if_pos hmem] at hfin
      exact absurd hfin (by simp)
    · rw [if_neg hmem] at hfin ⊢
      cases hrl : SnakeGame.runLoop ⟨occ, ctp, (p0, (sx, sy)) :: ctail, sx, sy⟩ fuel ks
          (SnakeGame.init_snake sx sy) with
      | quitGame =>
        rw [hrl] at hfin
        exact absurd hfin (by simp)
      | fuelOut s ks2 =>
        rw [hrl] at hfin
        exact absurd hfin (by simp)
      | done s ks2 =>
        have hseed := runLoop_done_trail ⟨occ, ctp, (p0, (sx, sy)) :: ctail, sx, sy⟩ fuel ks
          (SnakeGame.init_snake sx sy) s ks2 (fun c hc => hc) hrl c hc
        exact mem_commit hseed

theorem init_snake_seed_and_checks_witness :
    ((0:ℤ) ≤ 10 ∧ (10:ℤ) < (SnakeGame.GRID_W : ℤ) ∧ (0:ℤ) ≤ 10 ∧ (10:ℤ) < (SnakeGame.GRID_H : ℤ)) ∧
    ((SnakeGame.init_snake 10 10).snake
      = [(10, 10), (((10:ℤ) - 1) % (SnakeGame.GRID_W : ℤ), 10), (((10:ℤ) - 2) % (SnakeGame.GRID_W : ℤ), 10)] ∧
    (SnakeGame.init_snake 10 10).trail = (SnakeGame.init_snake 10 10).snake ∧
    ((SnakeGame.init_snake 10 10).snake).headD (0, 0) = (10, 10) ∧
    (∀ (pm : String → Option SnakeGame.Cell) (ctp : SnakeGame.Cell → Option String)
       (nio : String → Option ℕ) (fuel : ℕ) (nm : String) (pins : List String)
       (ks : List SnakeGame.Key) (occ : List SnakeGame.Cell)
       (pers : List (ℕ × List SnakeGame.Cell)) (p0 : String) (ctail : List (String × SnakeGame.Cell)),
      pins.filterMap (fun p => (pm p).map (fun c => (p, c))) = (p0, ((10:ℤ), (10:ℤ))) :: ctail →
      ((SnakeGame.routeNets pm ctp nio fuel [(nm, pins)] ks occ pers).ending
          = SnakeGame.RunEnd.pausedInvalid ↔ ((10:ℤ), (10:ℤ)) ∈ occ)) ∧
    (∀ (pm : String → Option SnakeGame.Cell) (ctp : SnakeGame.Cell → Option String)
       (nio : String → Option ℕ) (fuel : ℕ) (nm : String) (pins : List String)
       (ks : List SnakeGame.Key) (occ : List SnakeGame.Cell)
       (pers : List (ℕ × List SnakeGame.Cell)) (p0 : String) (ctail : List (String × SnakeGame.Cell)),
      pins.filterMap (fun p => (pm p).map (fun c => (p, c))) = (p0, ((10:ℤ), (10:ℤ))) :: ctail →
      (SnakeGame.routeNets pm ctp nio fuel [(nm, pins)] ks occ pers).ending
          = SnakeGame.RunEnd.finished →
      ∀ c ∈ (SnakeGame.init_snake 10 10).trail,
        c ∈ (SnakeGame.routeNets pm ctp nio fuel [(nm, pins)] ks occ pers).occupied)) :=
  ⟨⟨by decide, by decide, by decide, by decide⟩,
   init_snake_seed_and_checks 10 10 (by decide) (by decide) (by decide) (by decide)⟩

/-- C9: a net none of whose pins appears in the pad index contributes an
empty coords list and is skipped silently: no snake runs, the occupied
cells and the persistence records are passed on unchanged, and processing
continues with the next net in order. -/
theorem unmapped_net_skipped (pm : String → Option SnakeGame.Cell)
    (ctp : SnakeGame.Cell → Option String) (nio : String → Option ℕ) (fuel : ℕ)
    (nm : String) (pins : List String) (rest : List (String × List String))
    (ks : List SnakeGame.Key) (occ : List SnakeGame.Cell) (pers : List (ℕ × List SnakeGame.Cell))
    (h : ∀ p ∈ pins, pm p = none) :
    SnakeGame.routeNets pm ctp nio fuel ((nm, pins) :: rest) ks occ pers
      = SnakeGame.routeNets pm ctp nio fuel rest ks occ pers := by
  have hempty : pins.filterMap (fun p => (pm p).map (fun c => (p, c))) = [] := by
    apply List.filterMap_eq_nil_iff.mpr
    intro p hp
    rw [h p hp]
    rfl
  simp only [SnakeGame.routeNets, hempty]

theorem unmapped_net_skipped_witness :
    (∀ p ∈ ["U1:3", "U1:4"], (fun _ : String => (none : Option SnakeGame.Cell)) p = none) ∧
    SnakeGame.routeNets (fun _ => none) (fun _ => none) (fun _ => none) 7
        [("GND", ["U1:3", "U1:4"])] [] [((3:ℤ), (3:ℤ))] [(5, [((1:ℤ), (1:ℤ))])]
      = SnakeGame.routeNets (fun _ => none) (fun _ => none) (fun _ => none) 7
          [] [] [((3:ℤ), (3:ℤ))] [(5, [((1:ℤ), (1:ℤ))])] :=
  ⟨fun p _ => rfl,
   unmapped_net_skipped (fun _ => none) (fun _ => none) (fun _ => none) 7
     "GND" ["U1:3", "U1:4"] [] [] [((3:ℤ), (3:ℤ))] [(5, [((1:ℤ), (1:ℤ))])]
     (fun p _ => rfl)⟩

theorem parse_failure_restores_witness :
    ((∀ t : String, (fun _ => false) t = false) ∧
     2 ≤ ([((4:ℤ),(4:ℤ)), (5,4)]).length ∧
     PcbPatcher.computeBounds [((0:ℚ),(0:ℚ))] ≠ none ∧
     PcbPatcher.endsParen (PcbPatcher.pyRstrip ("(kicad_pcb)")) = true) ∧
    (PcbPatcher.appendTracks [((0:ℚ),(0:ℚ))] 1 [((4:ℤ),(4:ℤ)), (5,4)] (1/2) "F.Cu"
        (fun _ => false) "(kicad_pcb)" none).file = "(kicad_pcb)" ∧
    (PcbPatcher.appendTracks [((0:ℚ),(0:ℚ))] 1 [((4:ℤ),(4:ℤ)), (5,4)] (1/2) "F.Cu"
        (fun _ => false) "(kicad_pcb)" none).bak = some ("(kicad_pcb)") ∧
    (PcbPatcher.appendTracks [((0:ℚ),(0:ℚ))] 1 [((4:ℤ),(4:ℤ)), (5,4)] (1/2) "F.Cu"
        (fun _ => false) "(kicad_pcb)" none).result
      = PcbPatcher.PRes.err PcbPatcher.PatchErr.parseFail :=
  ⟨⟨fun _ => rfl, by decide, by simp [PcbPatcher.computeBounds], by rfl⟩,
   parse_failure_restores [((0:ℚ),(0:ℚ))] 1 [((4:ℤ),(4:ℤ)), (5,4)] (1/2) "F.Cu"
     (fun _ => false) "(kicad_pcb)" none
     (fun _ => rfl) (by decide) (by simp [PcbPatcher.computeBounds]) (by rfl)⟩
